import Mathlib

/-!
Verification of the gokrazy/syslogd log-collection daemon (`gokr-syslogd`).

This file gives a shallow embedding of the daemon's core:
the retention classifier (`coldLogFileNames`, `toDeleteLogFileNames`),
the compression step (`compressFile`), the compaction/pruning workers
(`compressOldLogs`, `deleteOldLogs`), the ingestion pipeline with its
file-handle cache and idle eviction, and the process-wide rate limiter
(`logRateLimited`), together with theorems about their behaviour.

Modelling conventions:
* Byte strings are `List Char` (all data involved is ASCII, where Go's
  byte-wise ordering agrees with `Char` ordering).
* `time.Time` values are modelled as `Int` seconds since the Unix epoch
  in the daemon's (fixed-offset) local zone, taken to be UTC: the zone
  only enters through `Format`, and the daemon's reference environment
  runs with a fixed-offset zone.  Durations are exact integers
  (`time.Sub` saturation only differs beyond ±292 years, which cannot
  change any comparison against 24h appearing in the code).
* The filesystem is an association list from path to content; opening
  and writing never fail in the ingestion model (failure injection is
  modelled explicitly where a claim is about failures).
-/

/-- Convert a string literal to the byte-list representation used throughout. -/
def chars (s : String) : List Char := s.data

/-- Go `strings.Compare`: lexicographic byte comparison returning -1, 0 or 1. -/
def goCompareL : List Char → List Char → Int
  | [], [] => 0
  | [], _ :: _ => -1
  | _ :: _, [] => 1
  | a :: as, b :: bs => if a < b then -1 else if b < a then 1 else goCompareL as bs

/-- Go `strings.HasSuffix(s, suffix)`:
`len(s) >= len(suffix) && s[len(s)-len(suffix):] == suffix`. -/
def goHasSuffix (s suffix : List Char) : Bool :=
  decide (suffix.length ≤ s.length) && (s.drop (s.length - suffix.length) == suffix)

/-- Go `filepath.Join(dir, name)` on already-clean paths. -/
def joinPath (dir name : List Char) : List Char := dir ++ '/' :: name

/-! ### Calendar: Go `time.Format` for the patterns `"2006-01-02"` and RFC3339

Go formats a `time.Time` by computing its proleptic Gregorian civil date.
We compute the same civil date with Howard Hinnant's `civil_from_days`
algorithm (valid from 0000-03-01 on, which covers every date the daemon
can name), phrased over `Nat` day-of-era arithmetic. -/

/-- Year-of-era (0..399) of a day-of-era (0..146096), Hinnant's formula. -/
def yoeOf (doe : Nat) : Nat :=
  (doe - doe / 1460 + doe / 36524 - doe / 146096) / 365

/-- Day-of-era on which year-of-era `yoe` starts (March-based years). -/
def yearStart (yoe : Nat) : Nat := 365 * yoe + yoe / 4 - yoe / 100

/-- Day-of-year (0..365, March-based) of a day-of-era. -/
def doyOf (doe : Nat) : Nat := doe - yearStart (yoeOf doe)

/-- Shifted month index (0 = March .. 11 = February) of a day-of-year. -/
def mpOf (doy : Nat) : Nat := (5 * doy + 2) / 153

/-- Day-of-year on which shifted month `mp` starts. -/
def monthStart (mp : Nat) : Nat := (153 * mp + 2) / 5

/-- Day-of-month (1-based) of a day-of-year. -/
def domOf (doy : Nat) : Nat := doy - monthStart (mpOf doy) + 1

/-- Civil month (1..12) of a shifted month index. -/
def monthOf (mp : Nat) : Nat := if mp < 10 then mp + 3 else mp - 9

/-- Civil (year-within-era 0..400, month, day) of a day-of-era. -/
def civilOfDoe (doe : Nat) : Nat × Nat × Nat :=
  let doy := doyOf doe
  let m := monthOf (mpOf doy)
  (if m ≤ 2 then yoeOf doe + 1 else yoeOf doe, m, domOf doy)

/-- Civil (year, month, day) of a day count relative to the Unix epoch
(1970-01-01); Hinnant's `civil_from_days`, the date Go's `Format` prints. -/
def civilFromDays (z : Int) : Nat × Nat × Nat :=
  let n : Nat := (z + 719468).toNat
  let era := n / 146097
  let c := civilOfDoe (n % 146097)
  (era * 400 + c.1, c.2.1, c.2.2)

/-- Calendar day (days since the Unix epoch) containing second `t`. -/
def dayOf (t : Int) : Int := t.fdiv 86400

/-- Second-within-day of second `t`. -/
def secOfDay (t : Int) : Nat := (t.fmod 86400).toNat

/-- ASCII digit for `n % 10`. -/
def digitChar (n : Nat) : Char := Char.ofNat (48 + n % 10)

/-- Two-digit zero-padded decimal (Go `%02d` on 0..99). -/
def pad2 (n : Nat) : List Char := [digitChar (n / 10), digitChar n]

/-- Four-digit zero-padded decimal (Go's year formatting on 0..9999). -/
def pad4 (n : Nat) : List Char :=
  [digitChar (n / 1000), digitChar (n / 100), digitChar (n / 10), digitChar n]

/-- The 10 characters `YYYY-MM-DD` of a civil date. -/
def dateChars (c : Nat × Nat × Nat) : List Char :=
  pad4 c.1 ++ '-' :: (pad2 c.2.1 ++ '-' :: pad2 c.2.2)

/-- Go `t.Format(basenameFormat)` with `basenameFormat = "2006-01-02.log"`. -/
def basenameFmt (t : Int) : List Char :=
  dateChars (civilFromDays (dayOf t)) ++ chars ".log"

/-- Go `t.Format(time.RFC3339)` for the daemon's (UTC) zone. -/
def rfc3339Chars (t : Int) : List Char :=
  dateChars (civilFromDays (dayOf t)) ++
    'T' :: (pad2 (secOfDay t / 3600) ++
      ':' :: (pad2 (secOfDay t % 3600 / 60) ++ ':' :: (pad2 (secOfDay t % 60) ++ ['Z'])))

/-- Basename `<YYYY-MM-DD>.log` of the plain daily file for day `z`. -/
def plainNameOf (z : Int) : List Char := dateChars (civilFromDays z) ++ chars ".log"

/-- Basename `<YYYY-MM-DD>.log.zst` of the compressed daily file for day `z`. -/
def zstNameOf (z : Int) : List Char := dateChars (civilFromDays z) ++ chars ".log.zst"

/-! ### Go `sort.Find` -/

/-- The binary-search loop of Go's `sort.Find`, with explicit fuel so that
it is structurally recursive (the gap `j - i` shrinks on every iteration,
so any fuel of at least the initial gap gives the loop's exact result). -/
def sortFindLoop : Nat → (Nat → Int) → Nat → Nat → Nat
  | 0, _, i, _ => i
  | fuel + 1, cmp, i, j =>
      if i < j then
        if 0 < cmp ((i + j) / 2) then sortFindLoop fuel cmp ((i + j) / 2 + 1) j
        else sortFindLoop fuel cmp i ((i + j) / 2)
      else i

/-- Go `sort.Find(n, cmp)`: the smallest index with `cmp ≤ 0` (for a `cmp`
whose non-positive region is a suffix), and whether `cmp` is 0 there. -/
def sortFind (n : Nat) (cmp : Nat → Int) : Nat × Bool :=
  let i := sortFindLoop n cmp 0 n
  (i, decide (i < n) && (cmp i == 0))

/-! ### Retention classifier -/

/-- One host subdirectory: its name and its file listing
(`os.ReadDir` returns basenames sorted lexicographically). -/
structure HostDir where
  hname : List Char
  entries : List (List Char)

/-- Per-host body of the `coldLogFileNames` loop: keep plain `.log` files,
then truncate the sorted list at each of the two boundary basenames found
by `sort.Find`. -/
def coldOfHost (dir : List Char) (earliestInUse currentlyInUse : List Char)
    (host : HostDir) : List (List Char) :=
  let hdir := joinPath dir host.hname
  let logFileNames :=
    (host.entries.filter (fun n => goHasSuffix n (chars ".log"))).map (joinPath hdir)
  [joinPath hdir earliestInUse, joinPath hdir currentlyInUse].foldl
    (fun cold earliest =>
      let r := sortFind cold.length (fun i => goCompareL earliest (cold.getD i []))
      if r.2 then cold.take r.1 else cold)
    logFileNames

/-- `(*server).coldLogFileNames(now)` over host directories `hosts` under
root `dir`: plain files safe to compress. -/
def coldLogFileNames (dir : List Char) (hosts : List HostDir) (now : Int) :
    List (List Char) :=
  let earliestInUse := basenameFmt (now - 24 * 3600)
  let currentlyInUse := basenameFmt now
  hosts.foldl (fun acc host => acc ++ coldOfHost dir earliestInUse currentlyInUse host) []

/-- Per-host body of the `toDeleteLogFileNames` loop: keep compressed
`.log.zst` files whose full path sorts before the boundary path. -/
def toDeleteOfHost (dir : List Char) (oldestToKeep : List Char) (host : HostDir) :
    List (List Char) :=
  let hdir := joinPath dir host.hname
  let logFileNames :=
    (host.entries.filter (fun n => goHasSuffix n (chars ".log.zst"))).map (joinPath hdir)
  logFileNames.filter (fun fn => 0 < goCompareL (joinPath hdir oldestToKeep) fn)

/-- `(*server).toDeleteLogFileNames(now)` over host directories `hosts` under
root `dir`: compressed files old enough to delete. -/
def toDeleteLogFileNames (dir : List Char) (hosts : List HostDir) (now : Int) :
    List (List Char) :=
  let oldestToKeep := basenameFmt (now - 7 * 24 * 3600)
  hosts.foldl (fun acc host => acc ++ toDeleteOfHost dir oldestToKeep host) []

/-- Render a host whose directory holds the plain files for the given days. -/
def renderPlainHost (p : List Char × List Int) : HostDir :=
  ⟨p.1, p.2.map plainNameOf⟩

/-- Render a host whose directory holds, for each `(z, b)`, the compressed
file for day `z` when `b` is true and the plain file for day `z` otherwise. -/
def renderMixedHost (p : List Char × List (Int × Bool)) : HostDir :=
  ⟨p.1, p.2.map (fun e => if e.2 then zstNameOf e.1 else plainNameOf e.1)⟩

/-- Spec-side description of `toDeleteLogFileNames` (claim C2): exactly the
compressed files dated strictly before `now − 7 days`, per host in order. -/
def toDeleteSpec (dir : List Char) (hosts : List (List Char × List (Int × Bool)))
    (now : Int) : List (List Char) :=
  hosts.foldl (fun acc p => acc ++
    ((p.2.filter (fun e => e.2 && decide (e.1 < dayOf (now - 7 * 24 * 3600)))).map
      (fun e => joinPath (joinPath dir p.1) (zstNameOf e.1)))) []

/-- The per-host result `coldLogFileNames` actually produces on well-dated
sorted listings: the strictly-older days when a boundary day is listed,
everything (futures included) otherwise. -/
def coldDaysOfHost (L : List Int) (e c : Int) : List Int :=
  if e ∈ L ∨ c ∈ L then L.filter (fun z => z < e) else L

/-! ### Ingestion pipeline and file-handle cache -/

/-- Cache key: `(hostname, basename)`. -/
structure FileKey where
  hostname : List Char
  basename : List Char
deriving DecidableEq

/-- Cached handle: the identity of the underlying `*os.File` (fresh per
`openFile` call) and the last-use timestamp. -/
structure OpenFile where
  fid : Nat
  lastUse : Int
deriving DecidableEq

/-- Association-list lookup (Go map read). -/
def alookup {α : Type} : List (FileKey × α) → FileKey → Option α
  | [], _ => none
  | (k, v) :: rest, key => if k = key then some v else alookup rest key

/-- Association-list update-or-insert (Go map write). -/
def aset {α : Type} : List (FileKey × α) → FileKey → α → List (FileKey × α)
  | [], key, v => [(key, v)]
  | (k, w) :: rest, key, v =>
      if k = key then (k, v) :: rest else (k, w) :: aset rest key v

/-- File contents, keyed by path. -/
def FsC : Type := List (List Char × List Char)

/-- Bytes currently stored at `path` (a missing file reads as absent). -/
def fsGetC : FsC → List Char → Option (List Char)
  | [], _ => none
  | (p, v) :: rest, path => if p = path then some v else fsGetC rest path

/-- Append `line` to the file at `path`, creating it if absent (`openFile`
opens or creates and seeks to end once; the daemon is the sole writer). -/
def fsAppendC : FsC → List Char → List Char → FsC
  | [], path, line => [(path, line)]
  | (p, v) :: rest, path, line =>
      if p = path then (p, v ++ line) :: rest else (p, v) :: fsAppendC rest path line

/-- Daemon state owned by the consumer goroutine. -/
structure ServerState where
  dir : List Char
  files : List (FileKey × OpenFile)
  contents : FsC
  stride : Int
  nextId : Nat
  rl : Bool

/-- A decoded syslog message (absent syslog parts read as their zero values). -/
structure LogParts where
  hostname : List Char
  tag : List Char
  body : List Char
  timestamp : Int

/-- The instant Go's zero `time.Time` (checked by `IsZero`) denotes,
in seconds relative to the Unix epoch. -/
def goZeroSec : Int := -62135596800

/-- The formatted record line
`rfc3339=<RFC3339 timestamp> <tag>: <body>` plus newline. -/
def msgLine (m : LogParts) : List Char :=
  chars "rfc3339=" ++ rfc3339Chars m.timestamp ++
    ' ' :: (m.tag ++ ':' :: ' ' :: (m.body ++ ['\n']))

/-- The path `<root>/<hostname>/<date-of-message-timestamp>.log`. -/
def msgPath (dir : List Char) (m : LogParts) : List Char :=
  joinPath (joinPath dir m.hostname) (basenameFmt m.timestamp)

/-- Validation performed by the consumer loop: non-empty hostname, tag and
body, non-zero timestamp, and clock drift of at most 24 hours. -/
def validMsg (now : Int) (m : LogParts) : Prop :=
  m.hostname ≠ [] ∧ m.tag ≠ [] ∧ m.body ≠ [] ∧ m.timestamp ≠ goZeroSec ∧
    now - m.timestamp ≤ 24 * 3600

instance (now : Int) (m : LogParts) : Decidable (validMsg now m) := by
  unfold validMsg; infer_instance

/-- The idle-eviction sweep on the failure-free path: drop every handle not
used within the last 10 minutes. -/
def sweep (now : Int) (files : List (FileKey × OpenFile)) :
    List (FileKey × OpenFile) :=
  files.filter (fun e => decide (now - e.2.lastUse < 10 * 60))

/-- One iteration of the consumer loop (`gokrsyslogd`), processing message
`m` at time `now`: validate, resolve the cached handle (opening lazily),
append the formatted line, update last-use, and every 100 messages run the
eviction sweep. -/
def procMsg (now : Int) (st : ServerState) (m : LogParts) : ServerState :=
  if m.hostname = [] ∨ m.tag = [] ∨ m.body = [] ∨ m.timestamp = goZeroSec then st
  else if 24 * 3600 < now - m.timestamp then { st with rl := true }
  else
    let basename := basenameFmt m.timestamp
    let key : FileKey := ⟨m.hostname, basename⟩
    let opened :=
      match alookup st.files key with
      | some of => (of.fid, st.nextId)
      | none => (st.nextId, st.nextId + 1)
    let files1 := aset st.files key ⟨opened.1, now⟩
    let contents1 := fsAppendC st.contents (msgPath st.dir m) (msgLine m)
    let stride1 := st.stride - 1
    if stride1 ≤ 0 then
      { st with files := sweep now files1, contents := contents1,
                stride := 100, nextId := opened.2 }
    else
      { st with files := files1, contents := contents1,
                stride := stride1, nextId := opened.2 }

/-- The consumer loop over a delivery-ordered queue of timestamped messages. -/
def procMsgs (st : ServerState) : List (Int × LogParts) → ServerState
  | [] => st
  | (t, m) :: rest => procMsgs (procMsg t st m) rest

/-- Distinct cache keys: at most one handle per `FileKey`. -/
def keysDistinct (files : List (FileKey × OpenFile)) : Prop :=
  List.Pairwise (fun a b => a.1 ≠ b.1) files

/-! ### Idle eviction with close-failure reporting (C5) -/

/-- The eviction sweep with close results made explicit: `closeFails k`
says whether closing the handle for `k` returns an error.  Returns the
retained entries and the keys whose close failure was reported; a failed
close is reported but the entry is removed regardless. -/
def evictIdle (now : Int) (closeFails : FileKey → Bool)
    (files : List (FileKey × OpenFile)) :
    List (FileKey × OpenFile) × List FileKey :=
  files.foldl
    (fun acc e =>
      if now - e.2.lastUse < 10 * 60 then (acc.1 ++ [e], acc.2)
      else (acc.1, if closeFails e.1 then acc.2 ++ [e.1] else acc.2))
    ([], [])

/-! ### Compression and the compaction/pruning workers -/

/-- File bytes: either literal bytes, the Zstandard encoding of some bytes,
or a truncated (partially written) encoding.  That decoding inverts
encoding is the contract of the external zstd codec. -/
inductive Bs
  | lit (cs : List Char)
  | zstd (b : Bs)
  | zhalf (b : Bs)
deriving DecidableEq

/-- Zstandard decoder (`zstdcat`): succeeds exactly on complete encodings. -/
def unzstd : Bs → Option Bs
  | .zstd b => some b
  | _ => none

/-- Filesystem with typed contents, for the compression model. -/
def Fs2 : Type := List (List Char × Bs)

def fsGet2 : Fs2 → List Char → Option Bs
  | [], _ => none
  | (p, v) :: rest, path => if p = path then some v else fsGet2 rest path

def fsSet2 : Fs2 → List Char → Bs → Fs2
  | [], path, v => [(path, v)]
  | (p, w) :: rest, path, v =>
      if p = path then (p, v) :: rest else (p, w) :: fsSet2 rest path v

def fsDel2 : Fs2 → List Char → Fs2
  | [], _ => []
  | (p, w) :: rest, path => if p = path then fsDel2 rest path else (p, w) :: fsDel2 rest path

/-- The final `<fn>.zst` path. -/
def zstPathOf (fn : List Char) : List Char := fn ++ chars ".zst"

/-- The fresh temporary path `renameio.TempFile` creates next to `fn`
(the real name is random; the model relies on it differing from the source
and target paths, with freshness against the rest of the tree hypothesised). -/
def tmpPathOf (fn : List Char) : List Char := fn ++ chars ".zst-tmp"

/-- The sequence of filesystem states `compressFile(fn)` passes through:
open the source, create the temporary file, stream the Zstandard encoding
into it, atomically rename it onto `<fn>.zst`, then remove `fn`. -/
def compressTrace (fs : Fs2) (fn : List Char) : List Fs2 :=
  match fsGet2 fs fn with
  | none => [fs]
  | some b =>
      let tmp := tmpPathOf fn
      let s1 := fsSet2 fs tmp (.zhalf b)
      let s2 := fsSet2 fs tmp (.zstd b)
      let s3 := fsSet2 (fsDel2 s2 tmp) (zstPathOf fn) (.zstd b)
      [fs, s1, s2, s3, fsDel2 s3 fn]

/-- `compressFile(fn)`: the final filesystem on success, or an error if the
source cannot be opened. -/
def compressFileM (fs : Fs2) (fn : List Char) : Except Unit Fs2 :=
  match fsGet2 fs fn with
  | none => .error ()
  | some b =>
      let s2 := fsSet2 fs (tmpPathOf fn) (.zstd b)
      let s3 := fsSet2 (fsDel2 s2 (tmpPathOf fn)) (zstPathOf fn) (.zstd b)
      .ok (fsDel2 s3 fn)

/-- The filesystem left behind when `compressFile(fn)` fails after completing
`k` of its steps (0 = before creating the temporary file, 1 = after creating
it, 2 = after encoding, 3 = after the atomic rename, failing at the final
remove): the deferred `Cleanup` removes the temporary file unless the rename
already consumed it. -/
def compressAbort (fs : Fs2) (fn : List Char) (k : Nat) : Fs2 :=
  match fsGet2 fs fn with
  | none => fs
  | some b =>
      let tmp := tmpPathOf fn
      if k = 0 then fs
      else if k = 1 then fsDel2 (fsSet2 fs tmp (.zhalf b)) tmp
      else if k = 2 then fsDel2 (fsSet2 fs tmp (.zstd b)) tmp
      else fsSet2 (fsDel2 (fsSet2 fs tmp (.zstd b)) tmp) (zstPathOf fn) (.zstd b)

/-- Classifier outcome as the workers see it: `notExist` models the missing
root directory (`os.IsNotExist`). -/
inductive GErr
  | notExist
  | other
deriving DecidableEq

/-- One iteration of `compressOldLogs`'s loop over the cold files: try
`compressFile(fn)` (with injected failure `failAt fn = some k`: the call
fails after completing `k` steps); a failure is logged and the loop moves
on to the next file. -/
def compressStep (failAt : List Char → Option Nat)
    (acc : Fs2 × List (List Char) × List (List Char)) (fn : List Char) :
    Fs2 × List (List Char) × List (List Char) :=
  match failAt fn with
  | some k => (compressAbort acc.1 fn k, acc.2.1 ++ [fn], acc.2.2 ++ [fn])
  | none =>
      match compressFileM acc.1 fn with
      | .ok fs2 => (fs2, acc.2.1 ++ [fn], acc.2.2)
      | .error _ => (acc.1, acc.2.1 ++ [fn], acc.2.2 ++ [fn])

/-- `(*server).compressOldLogs()` with per-file failure injection
(`failAt fn = some k`: compressing `fn` fails after step `k`).  Returns the
final filesystem, the files attempted, and the files whose failure was
logged; a missing root directory means nothing to do. -/
def compressOldLogs (coldRes : Except GErr (List (List Char))) (fs : Fs2)
    (failAt : List Char → Option Nat) :
    Except GErr (Fs2 × List (List Char) × List (List Char)) :=
  match coldRes with
  | .error .notExist => .ok (fs, [], [])
  | .error e => .error e
  | .ok cold => .ok (cold.foldl (compressStep failAt) (fs, [], []))

/-- One iteration of `deleteOldLogs`'s loop: `os.Remove(fn)`; a failure
(`delFails fn = true`) is logged and the loop moves on. -/
def deleteStep (delFails : List Char → Bool)
    (acc : Fs2 × List (List Char) × List (List Char)) (fn : List Char) :
    Fs2 × List (List Char) × List (List Char) :=
  if delFails fn then (acc.1, acc.2.1 ++ [fn], acc.2.2 ++ [fn])
  else (fsDel2 acc.1 fn, acc.2.1 ++ [fn], acc.2.2)

/-- `(*server).deleteOldLogs()` with per-file failure injection.  Returns the
final filesystem, the files attempted, and the files whose deletion failure
was logged. -/
def deleteOldLogs (delRes : Except GErr (List (List Char))) (fs : Fs2)
    (delFails : List Char → Bool) :
    Except GErr (Fs2 × List (List Char) × List (List Char)) :=
  match delRes with
  | .error .notExist => .ok (fs, [], [])
  | .error e => .error e
  | .ok toDelete => .ok (toDelete.foldl (deleteStep delFails) (fs, [], []))

/-- The filesystem after `compressOldLogs`'s loop, computed directly
(skipping failed files). -/
def compressRunFs (failAt : List Char → Option Nat) :
    List (List Char) → Fs2 → Fs2
  | [], fs => fs
  | fn :: rest, fs =>
      match failAt fn with
      | some k => compressRunFs failAt rest (compressAbort fs fn k)
      | none =>
          match compressFileM fs fn with
          | .ok fs2 => compressRunFs failAt rest fs2
          | .error _ => compressRunFs failAt rest fs

/-- The files whose compression failure `compressOldLogs` logs, computed
directly. -/
def compressRunLog (failAt : List Char → Option Nat) :
    List (List Char) → Fs2 → List (List Char)
  | [], _ => []
  | fn :: rest, fs =>
      match failAt fn with
      | some k => fn :: compressRunLog failAt rest (compressAbort fs fn k)
      | none =>
          match compressFileM fs fn with
          | .ok fs2 => compressRunLog failAt rest fs2
          | .error _ => fn :: compressRunLog failAt rest fs

/-- The filesystem after `deleteOldLogs`'s loop, computed directly
(failed files are skipped, the rest are removed). -/
def deleteRunFs (delFails : List Char → Bool) :
    List (List Char) → Fs2 → Fs2
  | [], fs => fs
  | fn :: rest, fs =>
      deleteRunFs delFails rest (if delFails fn then fs else fsDel2 fs fn)

/-! ### The rate-limiting gate (`logRateLimited`) -/

/-- Linearized events on the process-wide flag: the once-a-second
`StoreUint32(&logRateLimited, 0)` by the ticker goroutine, and a call site's
`SwapUint32(&logRateLimited, 1)` attempt to log. -/
inductive RLEvent
  | reset
  | attempt
deriving DecidableEq

/-- State transition: `(flag, messages emitted so far)`.  An attempt sets
the flag and emits only when the old value was 0. -/
def rlStep : Bool × Nat → RLEvent → Bool × Nat
  | (_, c), .reset => (false, c)
  | (flag, c), .attempt => (true, if flag then c else c + 1)

/-- Run a linearized event trace from process start (`logRateLimited = 0`). -/
def rlRun (evs : List RLEvent) : Bool × Nat := evs.foldl rlStep (false, 0)

/-! ### Verification helpers (order on civil dates, bounded checkers) -/

/-- Lexicographic (chronological) order on civil dates. -/
def lexLt (a b : Nat × Nat × Nat) : Prop :=
  a.1 < b.1 ∨ (a.1 = b.1 ∧ (a.2.1 < b.2.1 ∨ (a.2.1 = b.2.1 ∧ a.2.2 < b.2.2)))

/-- Per-year boundary check for the year-of-era staircase. -/
def chkBdry (y : Nat) : Bool :=
  (yoeOf (yearStart y) == y) && (yoeOf (yearStart (y + 1) - 1) == y)

/-- Binary-splitting range checker (structural in the fuel so that the
kernel can evaluate it). -/
def chkRangeB : Nat → Nat → Nat → Bool
  | 0, lo, hi => hi ≤ lo
  | fuel + 1, lo, hi =>
      if hi ≤ lo then true
      else if hi = lo + 1 then chkBdry lo
      else chkRangeB fuel lo ((lo + hi) / 2) && chkRangeB fuel ((lo + hi) / 2) hi

/-- Per-day-of-year check for the month staircase and day-of-month bounds. -/
def chkMonth (doy : Nat) : Bool :=
  (monthStart (mpOf doy) ≤ doy) && (doy < monthStart (mpOf doy + 1)) &&
    (mpOf doy ≤ 11) && (1 ≤ domOf doy) && (domOf doy ≤ 31)

/-! ## Theorems

### The calendar computes Gregorian civil dates in chronological order -/

theorem lexLt_mk {a b c d e f : Nat} :
    lexLt (a, b, c) (d, e, f) ↔ (a < d ∨ (a = d ∧ (b < e ∨ (b = e ∧ c < f)))) := Iff.rfl

theorem yoeOf_mono {a b : Nat} (h : a ≤ b) : yoeOf a ≤ yoeOf b := by
  unfold yoeOf
  have h1 : a - a / 1460 + a / 36524 - a / 146096 ≤ b - b / 1460 + b / 36524 - b / 146096 := by
    omega
  exact Nat.div_le_div_right h1

theorem chkRangeB_sound : ∀ fuel lo hi, chkRangeB fuel lo hi = true →
    ∀ y, lo ≤ y → y < hi → chkBdry y = true := by
  intro fuel
  induction fuel with
  | zero => intro lo hi h y h1 h2; simp [chkRangeB] at h; omega
  | succ n ih =>
    intro lo hi h y h1 h2
    simp only [chkRangeB] at h
    split at h
    · omega
    · next hne =>
      split at h
      · next he =>
          have hy : y = lo := by omega
          subst hy
          exact h
      · rw [Bool.and_eq_true] at h
        rcases Nat.lt_or_ge y ((lo + hi) / 2) with hlt | hge
        · exact ih lo ((lo + hi) / 2) h.1 y h1 hlt
        · exact ih ((lo + hi) / 2) hi h.2 y hge h2

set_option maxHeartbeats 1000000 in
theorem bdry_all : chkRangeB 10 0 400 = true := by decide

theorem yoe_boundary {y : Nat} (h : y < 400) :
    yoeOf (yearStart y) = y ∧ yoeOf (yearStart (y + 1) - 1) = y := by
  have := chkRangeB_sound 10 0 400 bdry_all y (Nat.zero_le y) h
  unfold chkBdry at this
  rw [Bool.and_eq_true, beq_iff_eq, beq_iff_eq] at this
  exact this

theorem yearStart_mono {a b : Nat} (h : a ≤ b) : yearStart a ≤ yearStart b := by
  have h4 : a / 4 ≤ b / 4 := Nat.div_le_div_right h
  have h100 : a / 100 ≤ b / 100 := Nat.div_le_div_right h
  unfold yearStart
  omega

theorem yoe_le_399 {doe : Nat} (h : doe < 146097) : yoeOf doe ≤ 399 := by
  have h1 : yoeOf doe ≤ yoeOf 146096 := yoeOf_mono (by omega)
  have h2 : yoeOf 146096 = 399 := by decide
  omega

theorem charYoe {doe : Nat} (h : doe < 146097) :
    yearStart (yoeOf doe) ≤ doe ∧ (doe < yearStart (yoeOf doe + 1) ∨ doe = 146096) := by
  have hle : yoeOf doe ≤ 399 := yoe_le_399 h
  constructor
  · by_contra hc
    push_neg at hc
    rcases Nat.eq_zero_or_pos (yoeOf doe) with h0 | hpos
    · rw [h0] at hc; simp [yearStart] at hc
    · have hb := (@yoe_boundary (yoeOf doe - 1) (by omega)).2
      have he : yoeOf doe - 1 + 1 = yoeOf doe := by omega
      rw [he] at hb
      have hstep : yoeOf doe ≤ yoeOf (yearStart (yoeOf doe) - 1) :=
        yoeOf_mono (by omega)
      rw [hb] at hstep
      omega
  · by_contra hc
    push_neg at hc
    rcases hc with ⟨hge, hne⟩
    rcases Nat.lt_or_ge (yoeOf doe) 399 with hlt | h399
    · have hb := (@yoe_boundary (yoeOf doe + 1) (by omega)).1
      have hstep : yoeOf (yearStart (yoeOf doe + 1)) ≤ yoeOf doe := yoeOf_mono hge
      rw [hb] at hstep
      omega
    · have h400 : yoeOf doe = 399 := by omega
      rw [h400] at hge
      have : yearStart (399 + 1) = 146096 := by decide
      omega

set_option maxHeartbeats 1000000 in
set_option maxRecDepth 4000 in
theorem chkMonth_all : ∀ doy, doy < 366 → chkMonth doy = true := by decide

theorem monthChar {doy : Nat} (h : doy < 366) :
    monthStart (mpOf doy) ≤ doy ∧ doy < monthStart (mpOf doy + 1) ∧
      mpOf doy ≤ 11 ∧ 1 ≤ domOf doy ∧ domOf doy ≤ 31 := by
  have := chkMonth_all doy h
  unfold chkMonth at this
  simp only [Bool.and_eq_true, decide_eq_true_eq] at this
  tauto

theorem mpOf_mono {a b : Nat} (h : a ≤ b) : mpOf a ≤ mpOf b := by
  unfold mpOf; omega

theorem yearStart_succ_le {y : Nat} : yearStart (y + 1) ≤ yearStart y + 366 := by
  unfold yearStart
  omega

theorem doy_lt_366 {doe : Nat} (h : doe < 146097) : doyOf doe < 366 := by
  unfold doyOf
  rcases (charYoe h).2 with hlt | he
  · have := (charYoe h).1
    have h2 : yearStart (yoeOf doe + 1) ≤ yearStart (yoeOf doe) + 366 := yearStart_succ_le
    omega
  · subst he
    have h1 : yoeOf 146096 = 399 := by decide
    have h2 : yearStart 399 = 145731 := by decide
    rw [h1, h2]
    omega

/-- Within one era, `civilOfDoe` is strictly increasing in lexicographic order. -/
theorem civilOfDoe_lt {doe1 doe2 : Nat} (h1 : doe1 < doe2) (h2 : doe2 < 146097) :
    lexLt (civilOfDoe doe1) (civilOfDoe doe2) := by
  have hc1 := @charYoe doe1 (by omega)
  have hc2 := @charYoe doe2 h2
  have hyle : yoeOf doe1 ≤ yoeOf doe2 := yoeOf_mono (by omega)
  have hdoy1 : doyOf doe1 < 366 := doy_lt_366 (by omega)
  have hdoy2 : doyOf doe2 < 366 := doy_lt_366 h2
  have hm1 := monthChar hdoy1
  have hm2 := monthChar hdoy2
  rcases Nat.lt_or_ge (yoeOf doe1) (yoeOf doe2) with hylt | hyge
  · unfold civilOfDoe lexLt monthOf
    simp only
    split_ifs <;> omega
  · have hyeq : yoeOf doe1 = yoeOf doe2 := by omega
    have hdlt : doyOf doe1 < doyOf doe2 := by
      unfold doyOf
      rw [hyeq]
      have := hc1.1
      rw [hyeq] at this
      omega
    have hmple : mpOf (doyOf doe1) ≤ mpOf (doyOf doe2) := mpOf_mono (by omega)
    rcases Nat.lt_or_ge (mpOf (doyOf doe1)) (mpOf (doyOf doe2)) with hmlt | hmge
    · unfold civilOfDoe lexLt monthOf
      simp only
      rw [hyeq]
      split_ifs <;> omega
    · have hmeq : mpOf (doyOf doe1) = mpOf (doyOf doe2) := by omega
      have hdm : domOf (doyOf doe1) < domOf (doyOf doe2) := by
        unfold domOf
        rw [hmeq]
        have := hm1.1
        rw [hmeq] at this
        omega
      unfold civilOfDoe lexLt monthOf
      simp only
      rw [hyeq, hmeq]
      split_ifs <;> omega

theorem civilOfDoe_fst_le {doe : Nat} (h : doe < 146097) : (civilOfDoe doe).1 ≤ 400 := by
  have := yoe_le_399 h
  unfold civilOfDoe
  simp only
  split_ifs <;> omega

theorem civilOfDoe_fst_eq_400 {doe : Nat} (h : doe < 146097)
    (he : (civilOfDoe doe).1 = 400) : (civilOfDoe doe).2.1 ≤ 2 := by
  unfold civilOfDoe at he ⊢
  simp only at he ⊢
  split_ifs at he ⊢ <;> first | omega | (exfalso; have := yoe_le_399 h; omega)

theorem civilOfDoe_fst_eq_zero {doe : Nat} (he : (civilOfDoe doe).1 = 0) :
    3 ≤ (civilOfDoe doe).2.1 := by
  unfold civilOfDoe monthOf at he ⊢
  simp only at he ⊢
  split_ifs at he ⊢ <;> omega

/-- `civilFromDays` is strictly increasing in lexicographic order on its
domain of validity. -/
theorem civilFromDays_lt {z1 z2 : Int} (h0 : -719468 ≤ z1) (h : z1 < z2) :
    lexLt (civilFromDays z1) (civilFromDays z2) := by
  have hn : (z1 + 719468).toNat < (z2 + 719468).toNat := by omega
  have hmod1 : (z1 + 719468).toNat % 146097 < 146097 := Nat.mod_lt _ (by omega)
  have hmod2 : (z2 + 719468).toNat % 146097 < 146097 := Nat.mod_lt _ (by omega)
  have hEq1 : civilFromDays z1 =
      ((z1 + 719468).toNat / 146097 * 400 + (civilOfDoe ((z1 + 719468).toNat % 146097)).1,
        (civilOfDoe ((z1 + 719468).toNat % 146097)).2.1,
        (civilOfDoe ((z1 + 719468).toNat % 146097)).2.2) := rfl
  have hEq2 : civilFromDays z2 =
      ((z2 + 719468).toNat / 146097 * 400 + (civilOfDoe ((z2 + 719468).toNat % 146097)).1,
        (civilOfDoe ((z2 + 719468).toNat % 146097)).2.1,
        (civilOfDoe ((z2 + 719468).toNat % 146097)).2.2) := rfl
  have hb400 : (civilOfDoe ((z1 + 719468).toNat % 146097)).1 ≤ 400 := civilOfDoe_fst_le hmod1
  rw [hEq1, hEq2, lexLt_mk]
  rcases Nat.lt_or_ge ((z1 + 719468).toNat / 146097) ((z2 + 719468).toNat / 146097)
      with helt | hege
  · rcases Nat.lt_or_ge
        ((z1 + 719468).toNat / 146097 * 400 + (civilOfDoe ((z1 + 719468).toNat % 146097)).1)
        ((z2 + 719468).toNat / 146097 * 400 + (civilOfDoe ((z2 + 719468).toNat % 146097)).1)
        with hylt | hyge
    · exact Or.inl hylt
    · have h1 : (civilOfDoe ((z1 + 719468).toNat % 146097)).1 = 400 := by omega
      have h2 : (civilOfDoe ((z2 + 719468).toNat % 146097)).1 = 0 := by omega
      have h3 := civilOfDoe_fst_eq_400 hmod1 h1
      have h4 := civilOfDoe_fst_eq_zero h2
      refine Or.inr ⟨by omega, Or.inl (by omega)⟩
  · have heeq : (z1 + 719468).toNat / 146097 = (z2 + 719468).toNat / 146097 := by omega
    have hdlt : (z1 + 719468).toNat % 146097 < (z2 + 719468).toNat % 146097 := by omega
    have hlex := civilOfDoe_lt hdlt hmod2
    unfold lexLt at hlex
    rw [heeq]
    rcases hlex with h5 | ⟨h5, h6⟩
    · exact Or.inl (by omega)
    · exact Or.inr ⟨by omega, h6⟩

theorem lexLt_irrefl (a : Nat × Nat × Nat) : ¬lexLt a a := by
  rcases a with ⟨x, y, z⟩
  rw [lexLt_mk]
  omega

theorem lexLt_asymm {a b : Nat × Nat × Nat} (h : lexLt a b) : ¬lexLt b a := by
  rcases a with ⟨x, y, z⟩
  rcases b with ⟨u, v, w⟩
  rw [lexLt_mk] at h ⊢
  omega

theorem civilFromDays_lt_iff {z1 z2 : Int} (h1 : -719468 ≤ z1) (h2 : -719468 ≤ z2) :
    lexLt (civilFromDays z1) (civilFromDays z2) ↔ z1 < z2 := by
  constructor
  · intro h
    by_contra hc
    push_neg at hc
    rcases lt_or_eq_of_le hc with hlt | he
    · exact lexLt_asymm (civilFromDays_lt h2 hlt) h
    · rw [he] at h
      exact lexLt_irrefl _ h
  · exact civilFromDays_lt h1

theorem civilFromDays_eq_iff {z1 z2 : Int} (h1 : -719468 ≤ z1) (h2 : -719468 ≤ z2) :
    civilFromDays z1 = civilFromDays z2 ↔ z1 = z2 := by
  constructor
  · intro h
    by_contra hc
    rcases Int.lt_or_lt_of_ne hc with hlt | hlt
    · have := civilFromDays_lt h1 hlt
      rw [h] at this
      exact lexLt_irrefl _ this
    · have := civilFromDays_lt h2 hlt
      rw [h] at this
      exact lexLt_irrefl _ this
  · intro h; rw [h]

theorem monthStart_mono {a b : Nat} (h : a ≤ b) : monthStart a ≤ monthStart b := by
  unfold monthStart; omega

/-- Month and day bounds of any formatted civil date. -/
theorem civilFromDays_md_bounds (z : Int) :
    1 ≤ (civilFromDays z).2.1 ∧ (civilFromDays z).2.1 ≤ 12 ∧
      1 ≤ (civilFromDays z).2.2 ∧ (civilFromDays z).2.2 ≤ 31 := by
  have hmod : (z + 719468).toNat % 146097 < 146097 := Nat.mod_lt _ (by omega)
  have hdoy := doy_lt_366 hmod
  have hmc := monthChar hdoy
  have hEq : civilFromDays z =
      ((z + 719468).toNat / 146097 * 400 + (civilOfDoe ((z + 719468).toNat % 146097)).1,
        (civilOfDoe ((z + 719468).toNat % 146097)).2.1,
        (civilOfDoe ((z + 719468).toNat % 146097)).2.2) := rfl
  rw [hEq]
  unfold civilOfDoe monthOf
  simp only
  split_ifs <;> omega

theorem civilOfDoe_fst_eq_400_ge {doe : Nat} (hlt : doe < 146097)
    (he : (civilOfDoe doe).1 = 400) : 146037 ≤ doe := by
  have hdoy := doy_lt_366 hlt
  have hmc := monthChar hdoy
  have hcy := charYoe hlt
  have hy399 := yoe_le_399 hlt
  have hdef : doyOf doe = doe - yearStart (yoeOf doe) := rfl
  unfold civilOfDoe monthOf at he
  simp only at he
  by_cases h10 : mpOf (doyOf doe) < 10
  · have hc1 : ¬(mpOf (doyOf doe) + 3 ≤ 2) := by omega
    rw [if_pos h10, if_neg hc1] at he
    omega
  · have h10n : ¬(mpOf (doyOf doe) < 10) := h10
    push_neg at h10
    have hc2 : mpOf (doyOf doe) - 9 ≤ 2 := by omega
    rw [if_neg h10n, if_pos hc2] at he
    have h4 : yoeOf doe = 399 := by omega
    have h1 : monthStart 10 ≤ monthStart (mpOf (doyOf doe)) := monthStart_mono h10
    have h306 : monthStart 10 = 306 := by decide
    have h2 : monthStart (mpOf (doyOf doe)) ≤ doyOf doe := hmc.1
    have h3 : yearStart (yoeOf doe) ≤ doe := hcy.1
    rw [h4] at h3 hdef
    have h5 : yearStart 399 = 145731 := by decide
    rw [h5] at h3 hdef
    omega

/-- The year of any day up to 9999-12-31 (day 2932896) is at most 9999. -/
theorem civilFromDays_year_le {z : Int} (h1 : -719468 ≤ z) (h2 : z ≤ 2932896) :
    (civilFromDays z).1 ≤ 9999 := by
  have hmod : (z + 719468).toNat % 146097 < 146097 := Nat.mod_lt _ (by omega)
  have hEq : civilFromDays z =
      ((z + 719468).toNat / 146097 * 400 + (civilOfDoe ((z + 719468).toNat % 146097)).1,
        (civilOfDoe ((z + 719468).toNat % 146097)).2.1,
        (civilOfDoe ((z + 719468).toNat % 146097)).2.2) := rfl
  rw [hEq]
  simp only
  have hb := civilOfDoe_fst_le hmod
  have hn : (z + 719468).toNat ≤ 3652364 := by omega
  rcases Nat.lt_or_ge ((z + 719468).toNat / 146097) 24 with hera | hera
  · omega
  · have hera24 : (z + 719468).toNat / 146097 = 24 := by omega
    rcases Nat.lt_or_ge ((civilOfDoe ((z + 719468).toNat % 146097)).1) 400 with ha | ha
    · omega
    · have h400 : (civilOfDoe ((z + 719468).toNat % 146097)).1 = 400 := by omega
      have := civilOfDoe_fst_eq_400_ge hmod h400
      omega

/-! ### Byte-string comparison of formatted dates -/

theorem digitChar_mod (a : Nat) : digitChar (a % 10) = digitChar a := by
  unfold digitChar
  congr 1
  omega

theorem digitChar_lt_base : ∀ a, a < 10 → ∀ b, b < 10 →
    ((digitChar a < digitChar b) ↔ a < b) := by decide

theorem digitChar_lt_iff (a b : Nat) : digitChar a < digitChar b ↔ a % 10 < b % 10 := by
  rw [← digitChar_mod a, ← digitChar_mod b]
  exact digitChar_lt_base (a % 10) (by omega) (b % 10) (by omega)

theorem goCompareL_cons_self (c : Char) (a b : List Char) :
    goCompareL (c :: a) (c :: b) = goCompareL a b := by
  simp [goCompareL]

theorem goCompareL_self : ∀ a : List Char, goCompareL a a = 0
  | [] => rfl
  | c :: rest => by rw [goCompareL_cons_self]; exact goCompareL_self rest

theorem goCompareL_eq_zero_iff : ∀ a b : List Char, goCompareL a b = 0 ↔ a = b
  | [], [] => by simp [goCompareL]
  | [], _ :: _ => by simp [goCompareL]
  | _ :: _, [] => by simp [goCompareL]
  | a :: as, b :: bs => by
      unfold goCompareL
      split_ifs with h1 h2
      · constructor
        · intro h; exact absurd h (by decide)
        · intro h
          injection h with he _
          exact absurd (he ▸ h1) (lt_irrefl b)
      · constructor
        · intro h; exact absurd h (by decide)
        · intro h
          injection h with he _
          exact absurd (he ▸ h2) (lt_irrefl b)
      · have hab : a = b := le_antisymm (not_lt.mp h2) (not_lt.mp h1)
        subst hab
        rw [goCompareL_eq_zero_iff as bs]
        constructor
        · intro h; rw [h]
        · intro h
          cases h
          rfl

/-- Two-digit zero-padded numbers compare like the numbers, whatever follows. -/
theorem twoDigitLt {a b : Nat} (h : a < b) (hb : b ≤ 99) (s1 s2 : List Char) :
    goCompareL (digitChar (a / 10) :: digitChar a :: s1)
      (digitChar (b / 10) :: digitChar b :: s2) = -1 := by
  have c1 : a / 10 / 10 = 0 := by omega
  have c2 : b / 10 / 10 = 0 := by omega
  simp only [goCompareL, digitChar_lt_iff]
  split_ifs <;> first | rfl | (exfalso; omega)

/-- Four-digit zero-padded numbers compare like the numbers, whatever follows. -/
theorem fourDigitLt {a b : Nat} (h : a < b) (hb : b ≤ 9999) (s1 s2 : List Char) :
    goCompareL
      (digitChar (a / 1000) :: digitChar (a / 100) :: digitChar (a / 10) :: digitChar a :: s1)
      (digitChar (b / 1000) :: digitChar (b / 100) :: digitChar (b / 10) :: digitChar b :: s2)
      = -1 := by
  have d1 : a / 1000 / 10 = 0 := by omega
  have d2 : a / 100 / 10 = a / 1000 := by rw [Nat.div_div_eq_div_mul]
  have d3 : a / 10 / 10 = a / 100 := by rw [Nat.div_div_eq_div_mul]
  have e1 : b / 1000 / 10 = 0 := by omega
  have e2 : b / 100 / 10 = b / 1000 := by rw [Nat.div_div_eq_div_mul]
  have e3 : b / 10 / 10 = b / 100 := by rw [Nat.div_div_eq_div_mul]
  simp only [goCompareL, digitChar_lt_iff]
  split_ifs <;> first | rfl | (exfalso; omega)

theorem goCompareL_strip : ∀ p a b : List Char, goCompareL (p ++ a) (p ++ b) = goCompareL a b
  | [], _, _ => rfl
  | c :: rest, a, b => by
      rw [List.cons_append, List.cons_append, goCompareL_cons_self]
      exact goCompareL_strip rest a b

theorem goCompareL_flip : ∀ a b : List Char, goCompareL a b = -goCompareL b a
  | [], [] => rfl
  | [], _ :: _ => rfl
  | _ :: _, [] => rfl
  | a :: as, b :: bs => by
      unfold goCompareL
      split_ifs with h1 h2 <;>
        first
          | decide
          | exact goCompareL_flip as bs
          | exact absurd h2 (lt_asymm h1)

/-- Formatted civil dates compare chronologically, whatever follows the
10 date characters on each side. -/
theorem dateCharsLt {c1 c2 : Nat × Nat × Nat} (hl : lexLt c1 c2)
    (hy : c2.1 ≤ 9999) (hm2 : c2.2.1 ≤ 99) (hd2 : c2.2.2 ≤ 99) (s1 s2 : List Char) :
    goCompareL (dateChars c1 ++ s1) (dateChars c2 ++ s2) = -1 := by
  obtain ⟨y1, m1, d1⟩ := c1
  obtain ⟨y2, m2, d2⟩ := c2
  rw [lexLt_mk] at hl
  simp only at hy hm2 hd2
  simp only [dateChars, pad4, pad2, List.cons_append, List.nil_append, List.append_assoc]
  rcases hl with hy12 | ⟨hyeq, hrest⟩
  · exact fourDigitLt hy12 hy _ _
  · subst hyeq
    simp only [goCompareL_cons_self]
    rcases hrest with hm12 | ⟨hmeq, hd12⟩
    · exact twoDigitLt hm12 hm2 _ _
    · subst hmeq
      simp only [goCompareL_cons_self]
      exact twoDigitLt hd12 hd2 _ _

/-- Daily-file basenames (with any common suffix) compare chronologically. -/
theorem dayNameLt {z1 z2 : Int} (h1 : -719468 ≤ z1) (hlt : z1 < z2)
    (h2 : z2 ≤ 2932896) (s1 s2 : List Char) :
    goCompareL (dateChars (civilFromDays z1) ++ s1)
      (dateChars (civilFromDays z2) ++ s2) = -1 := by
  have hb := civilFromDays_md_bounds z2
  exact dateCharsLt (civilFromDays_lt h1 hlt)
    (civilFromDays_year_le (by omega) h2) (by omega) (by omega) s1 s2

theorem basenameFmt_eq_plainName (t : Int) : basenameFmt t = plainNameOf (dayOf t) := rfl

theorem dayOf_eq_ediv (t : Int) : dayOf t = t / 86400 :=
  Int.fdiv_eq_ediv t (by norm_num)

theorem dayOf_sub_day (t : Int) : dayOf (t - 24 * 3600) = dayOf t - 1 := by
  rw [dayOf_eq_ediv, dayOf_eq_ediv]
  omega

theorem dayOf_sub_week (t : Int) : dayOf (t - 7 * 24 * 3600) = dayOf t - 7 := by
  rw [dayOf_eq_ediv, dayOf_eq_ediv]
  omega

/-! ### Suffix facts about daily-file names -/

theorem goHasSuffix_append (x s : List Char) : goHasSuffix (x ++ s) s = true := by
  unfold goHasSuffix
  rw [Bool.and_eq_true]
  constructor
  · simp
  · rw [List.length_append, Nat.add_sub_cancel, List.drop_left]
    exact beq_self_eq_true _

theorem dateChars_length (c : Nat × Nat × Nat) : (dateChars c).length = 10 := by
  simp [dateChars, pad4, pad2]

theorem digitChar_ne_dot_base : ∀ a, a < 10 → digitChar a ≠ '.' := by decide

theorem digitChar_ne_dot (a : Nat) : digitChar a ≠ '.' := by
  rw [← digitChar_mod a]
  exact digitChar_ne_dot_base (a % 10) (by omega)

theorem plainName_not_zst (z : Int) :
    goHasSuffix (plainNameOf z) (chars ".log.zst") = false := by
  unfold plainNameOf goHasSuffix
  rw [Bool.and_eq_false_iff]
  right
  rw [List.length_append, dateChars_length]
  have hlen : (chars ".log").length = 4 := rfl
  rw [hlen]
  show (List.drop 6 (dateChars (civilFromDays z) ++ chars ".log") == chars ".log.zst") = false
  have hd : List.drop 6 (dateChars (civilFromDays z) ++ chars ".log") =
      digitChar (civilFromDays z).2.1 :: '-' ::
        (pad2 (civilFromDays z).2.2 ++ chars ".log") := by
    simp [dateChars, pad4, pad2, List.cons_append, List.nil_append]
  rw [hd]
  rw [beq_eq_false_iff_ne]
  intro hcontra
  have : digitChar (civilFromDays z).2.1 = '.' := by
    have := congrArg (fun l => l.headI) hcontra
    simpa using this
  exact digitChar_ne_dot _ this

theorem zstName_has_zst (z : Int) :
    goHasSuffix (zstNameOf z) (chars ".log.zst") = true := by
  unfold zstNameOf
  exact goHasSuffix_append _ _

theorem plainName_has_log (z : Int) :
    goHasSuffix (plainNameOf z) (chars ".log") = true := by
  unfold plainNameOf
  exact goHasSuffix_append _ _

/-! ### Behaviour of `sort.Find` on a sorted list -/

theorem sortFindLoop_spec (cmp : Nat → Int) (n K : Nat)
    (hlo : ∀ h, h < K → 0 < cmp h) (hhi : ∀ h, K ≤ h → h < n → cmp h ≤ 0) :
    ∀ fuel i j, j - i ≤ fuel → i ≤ K → K ≤ j → j ≤ n → sortFindLoop fuel cmp i j = K := by
  intro fuel
  induction fuel with
  | zero =>
    intro i j hm hi hj hjn
    simp only [sortFindLoop]
    omega
  | succ fuel ih =>
    intro i j hm hi hj hjn
    rw [sortFindLoop]
    split_ifs with hij hcmp
    · have hK : (i + j) / 2 < K := by
        by_contra hc
        push_neg at hc
        have := hhi _ hc (by omega)
        omega
      exact ih _ _ (by omega) (by omega) hj hjn
    · have hK : K ≤ (i + j) / 2 := by
        by_contra hc
        push_neg at hc
        have := hlo _ hc
        omega
      exact ih _ _ (by omega) hi hK (by omega)
    · omega

theorem sortFind_spec (cmp : Nat → Int) (n K : Nat) (hK : K ≤ n)
    (hlo : ∀ h, h < K → 0 < cmp h) (hhi : ∀ h, K ≤ h → h < n → cmp h ≤ 0) :
    sortFind n cmp = (K, decide (K < n) && (cmp K == 0)) := by
  unfold sortFind
  have := sortFindLoop_spec cmp n K hlo hhi n 0 n (by omega) (Nat.zero_le K) hK le_rfl
  simp only [this]

/-! ### Sorted day lists: split at a boundary -/

theorem sorted_filter_split (b : Int) :
    ∀ L : List Int, List.Pairwise (fun x y => x < y) L →
      L = L.filter (fun z => decide (z < b)) ++ L.filter (fun z => !decide (z < b))
  | [], _ => rfl
  | x :: rest, hs => by
      obtain ⟨hmem, hrest⟩ := List.pairwise_cons.mp hs
      by_cases hx : x < b
      · have h1 : (x :: rest).filter (fun z => decide (z < b)) =
            x :: rest.filter (fun z => decide (z < b)) := by
          simp [List.filter_cons, hx]
        have h2 : (x :: rest).filter (fun z => !decide (z < b)) =
            rest.filter (fun z => !decide (z < b)) := by
          simp [List.filter_cons, hx]
        rw [h1, h2, List.cons_append]
        exact congrArg (x :: ·) (sorted_filter_split b rest hrest)
      · have hA : (x :: rest).filter (fun z => decide (z < b)) = [] := by
          rw [List.filter_eq_nil_iff]
          intro z hz
          rcases List.mem_cons.mp hz with rfl | hz'
          · simpa using hx
          · have := hmem z hz'
            simp only [decide_eq_true_eq]
            omega
        have hBall : (x :: rest).filter (fun z => !decide (z < b)) = x :: rest := by
          rw [List.filter_eq_self]
          intro z hz
          rcases List.mem_cons.mp hz with rfl | hz'
          · simpa using hx
          · have := hmem z hz'
            simp only [Bool.not_eq_true', decide_eq_false_iff_not]
            omega
        rw [hA, hBall, List.nil_append]

/-! ### Comparison of full per-host paths of daily files -/

theorem joinPath_as_append (p x : List Char) : joinPath p x = (p ++ ['/']) ++ x := by
  simp [joinPath]

theorem goCompareL_join (p x y : List Char) :
    goCompareL (joinPath p x) (joinPath p y) = goCompareL x y := by
  rw [joinPath_as_append, joinPath_as_append, goCompareL_strip]

theorem plainName_cmp_lt {z1 z2 : Int} (h1 : -719468 ≤ z1) (hlt : z1 < z2)
    (h2 : z2 ≤ 2932896) :
    goCompareL (plainNameOf z1) (plainNameOf z2) = -1 :=
  dayNameLt h1 hlt h2 (chars ".log") (chars ".log")

theorem plainName_cmp_gt {z1 z2 : Int} (h1 : -719468 ≤ z2) (hlt : z2 < z1)
    (h2 : z1 ≤ 2932896) :
    goCompareL (plainNameOf z1) (plainNameOf z2) = 1 := by
  rw [goCompareL_flip, plainName_cmp_lt h1 hlt h2]
  decide

/-- The non-cold suffix of a sorted day list starts with the boundary day
exactly when the boundary day is listed. -/
theorem sorted_B_head {b : Int} {L : List Int}
    (hsort : List.Pairwise (fun x y => x < y) L) (hmem : b ∈ L) :
    ∃ rest, L.filter (fun z => !decide (z < b)) = b :: rest := by
  have hbB : b ∈ L.filter (fun z => !decide (z < b)) := by
    rw [List.mem_filter]
    refine ⟨hmem, ?_⟩
    simp
  have hBsorted : List.Pairwise (fun x y => x < y) (L.filter (fun z => !decide (z < b))) :=
    List.Pairwise.filter _ hsort
  cases hB : L.filter (fun z => !decide (z < b)) with
  | nil => rw [hB] at hbB; cases hbB
  | cons c rest =>
      rw [hB] at hbB hBsorted
      have hcge : ¬(c < b) := by
        have hcB : c ∈ L.filter (fun z => !decide (z < b)) := by
          rw [hB]; exact List.mem_cons_self c rest
        rw [List.mem_filter] at hcB
        simpa using hcB.2
      rcases List.mem_cons.mp hbB with he | hbrest
      · exact ⟨rest, by rw [he]⟩
      · have := (List.pairwise_cons.mp hBsorted).1 b hbrest
        omega

theorem getD_map_name (f : Int → List Char) (l : List Int) {i : Nat}
    (h : i < l.length) (d : List Char) :
    (l.map f).getD i d = f (l.getD i 0) := by
  rw [List.getD_eq_getElem (l.map f) d (by simpa using h), List.getElem_map,
    List.getD_eq_getElem l 0 h]

theorem getD_mem (l : List Int) {i : Nat} (h : i < l.length) (d : Int) :
    l.getD i d ∈ l := by
  rw [List.getD_eq_getElem l d h]
  exact List.getElem_mem h

/-- One `sort.Find`-and-truncate step of `coldLogFileNames` on the rendered,
sorted listing of a host's plain files: it truncates to the strictly-older
days exactly when the boundary day itself is listed, and otherwise leaves
the list unchanged. -/
theorem coldStep (p : List Char) (L : List Int) (b : Int)
    (hsort : List.Pairwise (fun x y => x < y) L)
    (hrange : ∀ z ∈ L, -719468 ≤ z ∧ z ≤ 2932896)
    (hb1 : -719468 ≤ b) (hb2 : b ≤ 2932896) :
    ∀ cold, cold = L.map (fun z => joinPath p (plainNameOf z)) →
    (if (sortFind cold.length
          (fun i => goCompareL (joinPath p (plainNameOf b)) (cold.getD i []))).2
     then cold.take (sortFind cold.length
          (fun i => goCompareL (joinPath p (plainNameOf b)) (cold.getD i []))).1
     else cold)
    = (if b ∈ L then L.filter (fun z => decide (z < b)) else L).map
        (fun z => joinPath p (plainNameOf z)) := by
  intro cold hcold
  have hKle : (L.filter (fun z => decide (z < b))).length ≤ L.length :=
    List.length_filter_le _ _
  have hsplit := sorted_filter_split b L hsort
  set A := L.filter (fun z => decide (z < b)) with hA
  set B := L.filter (fun z => !decide (z < b)) with hB
  have hlen : cold.length = L.length := by rw [hcold, List.length_map]
  have hLlen : L.length = A.length + B.length := by
    conv_lhs => rw [hsplit]
    rw [List.length_append]
  have hcmp_lt : ∀ h, h < A.length →
      goCompareL (joinPath p (plainNameOf b)) (cold.getD h []) = 1 := by
    intro h hh
    have hhL : h < L.length := by omega
    rw [hcold, getD_map_name _ _ hhL, goCompareL_join]
    have hgd : L.getD h 0 = A.getD h 0 := by
      conv_lhs => rw [hsplit]
      exact List.getD_append A B 0 h hh
    have hmemA : A.getD h 0 ∈ A := getD_mem A hh 0
    rw [hgd]
    rw [List.mem_filter] at hmemA
    have hzlt : A.getD h 0 < b := by simpa using hmemA.2
    have hr := hrange _ hmemA.1
    exact plainName_cmp_gt hr.1 hzlt hb2
  have hgdB : ∀ h, A.length ≤ h → h < L.length →
      L.getD h 0 = B.getD (h - A.length) 0 := by
    intro h h1 _
    conv_lhs => rw [hsplit]
    exact List.getD_append_right A B 0 h h1
  have hcmp_ge : ∀ h, A.length ≤ h → h < L.length →
      goCompareL (joinPath p (plainNameOf b)) (cold.getD h []) ≤ 0 := by
    intro h h1 h2
    rw [hcold, getD_map_name _ _ h2, goCompareL_join, hgdB h h1 h2]
    have hmemB : B.getD (h - A.length) 0 ∈ B := getD_mem B (by omega) 0
    rw [List.mem_filter] at hmemB
    have hzge : ¬(B.getD (h - A.length) 0 < b) := by simpa using hmemB.2
    have hr := hrange _ hmemB.1
    rcases eq_or_lt_of_le (not_lt.mp hzge) with he | hgt
    · rw [← he, goCompareL_self]
    · rw [plainName_cmp_lt hb1 hgt hr.2]
      decide
  have hfind := sortFind_spec
    (fun i => goCompareL (joinPath p (plainNameOf b)) (cold.getD i []))
    cold.length A.length (by omega)
    (fun h hh => by
      show 0 < goCompareL (joinPath p (plainNameOf b)) (cold.getD h [])
      rw [hcmp_lt h hh]
      decide)
    (fun h h1 h2 => hcmp_ge h h1 (by omega))
  rw [hfind]
  dsimp only
  by_cases hmem : b ∈ L
  · obtain ⟨rest, hBr0⟩ := sorted_B_head hsort hmem
    have hBr : B = b :: rest := hBr0
    have hKlt : A.length < cold.length := by
      rw [hlen]
      rw [hBr] at hLlen
      simp only [List.length_cons] at hLlen
      omega
    have hcmpK : goCompareL (joinPath p (plainNameOf b)) (cold.getD A.length []) = 0 := by
      rw [hcold, getD_map_name _ _ (by omega), goCompareL_join,
        hgdB A.length le_rfl (by omega), Nat.sub_self, hBr]
      simp only [List.getD_cons_zero]
      exact goCompareL_self _
    have hcond : (decide (A.length < cold.length) &&
        (goCompareL (joinPath p (plainNameOf b)) (cold.getD A.length []) == 0)) = true := by
      rw [hcmpK]
      simp [hKlt]
    rw [hcond, if_pos rfl, if_pos hmem, hcold, ← List.map_take]
    refine congrArg _ ?_
    conv_lhs => rw [hsplit]
    exact List.take_left A B
  · have hfalse : (decide (A.length < cold.length) &&
        (goCompareL (joinPath p (plainNameOf b)) (cold.getD A.length []) == 0)) = false := by
      rcases Nat.lt_or_ge A.length cold.length with hlt | hge
      · have h2 : A.length < L.length := by omega
        have hm1 : goCompareL (joinPath p (plainNameOf b)) (cold.getD A.length []) = -1 := by
          rw [hcold, getD_map_name _ _ h2, goCompareL_join,
            hgdB A.length le_rfl h2, Nat.sub_self]
          have hmemB : B.getD 0 0 ∈ B := getD_mem B (by omega) 0
          rw [List.mem_filter] at hmemB
          have hzge : ¬(B.getD 0 0 < b) := by simpa using hmemB.2
          have hzne : B.getD 0 0 ≠ b := fun he => hmem (he ▸ hmemB.1)
          have hr := hrange _ hmemB.1
          exact plainName_cmp_lt hb1 (by omega) hr.2
        rw [hm1]
        simp
      · have : decide (A.length < cold.length) = false := decide_eq_false (not_lt.mpr hge)
        rw [this]
        simp
    rw [hfalse, if_neg Bool.false_ne_true, if_neg hmem, hcold]

/-- Composing the two truncation steps on the day level: the result is the
strictly-older days when a boundary day is listed, everything otherwise. -/
theorem coldDays_pure (L : List Int) (e : Int) :
    (if (e + 1) ∈ (if e ∈ L then L.filter (fun z => decide (z < e)) else L)
     then (if e ∈ L then L.filter (fun z => decide (z < e)) else L).filter
            (fun z => decide (z < e + 1))
     else (if e ∈ L then L.filter (fun z => decide (z < e)) else L))
    = coldDaysOfHost L e (e + 1) := by
  by_cases he : e ∈ L
  · simp only [if_pos he]
    have hnot : (e + 1) ∉ L.filter (fun z => decide (z < e)) := by
      intro hc
      rw [List.mem_filter] at hc
      have := hc.2
      simp only [decide_eq_true_eq] at this
      omega
    rw [if_neg hnot]
    unfold coldDaysOfHost
    rw [if_pos (Or.inl he)]
  · simp only [if_neg he]
    by_cases hc : (e + 1) ∈ L
    · rw [if_pos hc]
      unfold coldDaysOfHost
      rw [if_pos (Or.inr hc)]
      apply List.filter_congr
      intro z hz
      have hne : z ≠ e := fun h => he (h ▸ hz)
      rw [decide_eq_decide]
      omega
    · rw [if_neg hc]
      unfold coldDaysOfHost
      rw [if_neg (by tauto)]

/-- The per-host loop body of `coldLogFileNames`, on a host rendered from a
sorted list of days. -/
theorem coldOfHost_eq (dir hname : List Char) (L : List Int) (e c : Int)
    (hec : c = e + 1)
    (hsort : List.Pairwise (fun x y => x < y) L)
    (hrange : ∀ z ∈ L, -719468 ≤ z ∧ z ≤ 2932896)
    (he1 : -719468 ≤ e) (hc2 : c ≤ 2932896) :
    coldOfHost dir (plainNameOf e) (plainNameOf c) ⟨hname, L.map plainNameOf⟩
    = (coldDaysOfHost L e c).map
        (fun z => joinPath (joinPath dir hname) (plainNameOf z)) := by
  subst hec
  have hfilter : (List.map plainNameOf L).filter (fun n => goHasSuffix n (chars ".log"))
      = List.map plainNameOf L := by
    rw [List.filter_eq_self]
    intro n hn
    obtain ⟨z, _, rfl⟩ := List.mem_map.mp hn
    exact plainName_has_log z
  unfold coldOfHost
  simp only [hfilter, List.map_map, List.foldl_cons, List.foldl_nil]
  have hstep1 := coldStep (joinPath dir hname) L e hsort hrange he1 (by omega)
    (L.map (joinPath (joinPath dir hname) ∘ plainNameOf)) (by rw [Function.comp_def])
  rw [hstep1]
  have hsort1 : List.Pairwise (fun x y => x < y)
      (if e ∈ L then L.filter (fun z => decide (z < e)) else L) := by
    by_cases he : e ∈ L
    · rw [if_pos he]; exact List.Pairwise.filter _ hsort
    · rw [if_neg he]; exact hsort
  have hrange1 : ∀ z ∈ (if e ∈ L then L.filter (fun z => decide (z < e)) else L),
      -719468 ≤ z ∧ z ≤ 2932896 := by
    intro z hz
    by_cases he : e ∈ L
    · rw [if_pos he] at hz
      exact hrange z (List.mem_filter.mp hz).1
    · rw [if_neg he] at hz
      exact hrange z hz
  have hstep2 := coldStep (joinPath dir hname)
    (if e ∈ L then L.filter (fun z => decide (z < e)) else L) (e + 1)
    hsort1 hrange1 (by omega) (by omega)
    ((if e ∈ L then L.filter (fun z => decide (z < e)) else L).map
      (fun z => joinPath (joinPath dir hname) (plainNameOf z))) rfl
  rw [hstep2, ← coldDays_pure L e]

theorem foldl_append_congr {β : Type} (l : List β) (f g : β → List (List Char))
    (h : ∀ p ∈ l, f p = g p) :
    ∀ init, l.foldl (fun acc p => acc ++ f p) init = l.foldl (fun acc p => acc ++ g p) init := by
  induction l with
  | nil => intro init; rfl
  | cons x rest ih =>
      intro init
      simp only [List.foldl_cons]
      rw [h x (List.mem_cons_self x rest)]
      exact ih (fun p hp => h p (List.mem_cons_of_mem x hp)) _

/-- Claim C1 (corrected).  For host directories holding plain daily files
for sorted lists of (representable) days, `coldLogFileNames(now)` yields,
per host: the files strictly older than `now − 24h`'s day whenever the host
directory also holds a plain file dated `now`'s day or the previous day,
and the whole listing — future-dated files included — otherwise.  (The
`sort.Find` truncation only fires when a boundary basename is itself
present, so files dated `now`'s day or the previous day are never returned
and strictly older files always are, but a host with only future-dated
files has nothing truncated.) -/
theorem coldLogFileNames_characterization
    (dir : List Char) (hosts : List (List Char × List Int)) (now : Int)
    (hsort : ∀ p ∈ hosts, List.Pairwise (fun x y => x < y) p.2)
    (hrange : ∀ p ∈ hosts, ∀ z ∈ p.2, -719468 ≤ z ∧ z ≤ 2932896)
    (hnow1 : -719468 ≤ dayOf now - 1) (hnow2 : dayOf now ≤ 2932896) :
    coldLogFileNames dir (hosts.map renderPlainHost) now
    = hosts.foldl (fun acc p => acc ++
        (coldDaysOfHost p.2 (dayOf now - 1) (dayOf now)).map
          (fun z => joinPath (joinPath dir p.1) (plainNameOf z))) [] := by
  unfold coldLogFileNames
  simp only [basenameFmt_eq_plainName, dayOf_sub_day]
  rw [List.foldl_map]
  exact foldl_append_congr hosts _ _
    (fun p hp => coldOfHost_eq dir p.1 p.2 (dayOf now - 1) (dayOf now) (by omega)
      (hsort p hp) (hrange p hp) hnow1 hnow2) []

/-- Claim C1's counterexample: with `now = 2022-08-13 16:20` (so
`earliestInUse = 2022-08-12.log`) and a host directory holding only the
future-dated plain file `2022-08-14.log`, `coldLogFileNames` returns that
file even though its basename is ≥ `earliestInUse` (it is even greater
than `currentlyInUse`), contradicting "excludes every plain file whose
basename is ≥ `format(now − 24h)`". -/
theorem coldLogFileNames_future_cex :
    coldLogFileNames (chars "/perm/syslogd")
        [⟨chars "dr", [chars "2022-08-14.log"]⟩] 1660407600
      = [joinPath (joinPath (chars "/perm/syslogd") (chars "dr")) (chars "2022-08-14.log")]
    ∧ basenameFmt (1660407600 - 24 * 3600) = chars "2022-08-12.log"
    ∧ goCompareL (basenameFmt (1660407600 - 24 * 3600)) (chars "2022-08-14.log") = -1 := by
  refine ⟨?_, ?_, ?_⟩ <;> decide

/-- Witness for the corrected claim C1 at a concrete input: host `dr` holds
plain files for days 19214 (2022-08-10) and 19216 (2022-08-12), and
`now = 2022-08-13 16:20` (day 19217); the boundary day 19216 is present, so
exactly the strictly older file for day 19214 is returned. -/
theorem coldLogFileNames_characterization_witness :
    coldLogFileNames (chars "/perm/syslogd")
        ([(chars "dr", [(19214 : Int), 19216])].map renderPlainHost) 1660407600
      = [joinPath (joinPath (chars "/perm/syslogd") (chars "dr")) (plainNameOf 19214)] := by
  have h := coldLogFileNames_characterization (chars "/perm/syslogd")
    [(chars "dr", [(19214 : Int), 19216])] 1660407600
    (by decide) (by decide) (by decide) (by decide)
  rw [h]
  decide

/-- The `.log.zst` suffix filter keeps exactly the compressed entries of a
mixed rendered listing. -/
theorem filter_zst_render : ∀ E : List (Int × Bool),
    (E.map (fun e => if e.2 then zstNameOf e.1 else plainNameOf e.1)).filter
        (fun n => goHasSuffix n (chars ".log.zst"))
    = (E.filter (fun e => e.2)).map (fun e => zstNameOf e.1)
  | [] => rfl
  | e :: rest => by
      simp only [List.map_cons, List.filter_cons]
      by_cases he : e.2 = true
      · rw [if_pos he, if_pos (by rw [zstName_has_zst])]
        rw [if_pos he, List.map_cons]
        exact congrArg _ (filter_zst_render rest)
      · rw [if_neg he, if_neg (by rw [plainName_not_zst]; exact Bool.false_ne_true)]
        rw [if_neg he]
        exact filter_zst_render rest

/-- The deletion cut-off: a compressed file's full path sorts before the
boundary path exactly when its day is strictly before the boundary day. -/
theorem zstCmp_pos_iff (p : List Char) {bd z : Int} (hB1 : -719468 ≤ bd)
    (hB2 : bd ≤ 2932896) (hz1 : -719468 ≤ z) (hz2 : z ≤ 2932896) :
    0 < goCompareL (joinPath p (plainNameOf bd)) (joinPath p (zstNameOf z)) ↔ z < bd := by
  rw [goCompareL_join]
  rcases lt_trichotomy z bd with h | h | h
  · have hv : goCompareL (plainNameOf bd) (zstNameOf z) = 1 := by
      rw [goCompareL_flip]
      unfold zstNameOf plainNameOf
      rw [dayNameLt hz1 h hB2 (chars ".log.zst") (chars ".log")]
      decide
    rw [hv]
    omega
  · subst h
    have hv : goCompareL (plainNameOf z) (zstNameOf z) = -1 := by
      unfold zstNameOf plainNameOf
      rw [goCompareL_strip]
      decide
    rw [hv]
    omega
  · have hv : goCompareL (plainNameOf bd) (zstNameOf z) = -1 := by
      unfold zstNameOf plainNameOf
      rw [dayNameLt hB1 h hz2 (chars ".log") (chars ".log.zst")]
    rw [hv]
    omega

/-- The per-host loop body of `toDeleteLogFileNames` on a mixed rendered
listing keeps exactly the compressed entries dated before the boundary. -/
theorem toDeleteOfHost_eq (dir hname : List Char) (E : List (Int × Bool)) (bd : Int)
    (hrange : ∀ e ∈ E, -719468 ≤ e.1 ∧ e.1 ≤ 2932896)
    (hB1 : -719468 ≤ bd) (hB2 : bd ≤ 2932896) :
    toDeleteOfHost dir (plainNameOf bd)
        ⟨hname, E.map (fun e => if e.2 then zstNameOf e.1 else plainNameOf e.1)⟩
    = (E.filter (fun e => e.2 && decide (e.1 < bd))).map
        (fun e => joinPath (joinPath dir hname) (zstNameOf e.1)) := by
  unfold toDeleteOfHost
  simp only [filter_zst_render, List.map_map]
  rw [List.filter_map]
  have hcongr : (E.filter (fun e => e.2)).filter
      ((fun fn => decide (0 < goCompareL (joinPath (joinPath dir hname) (plainNameOf bd)) fn))
        ∘ ((joinPath (joinPath dir hname)) ∘ (fun e => zstNameOf e.1)))
      = (E.filter (fun e => e.2)).filter (fun e => decide (e.1 < bd)) := by
    apply List.filter_congr
    intro e he
    have hr := hrange e (List.mem_filter.mp he).1
    simp only [Function.comp_apply]
    rw [decide_eq_decide]
    exact zstCmp_pos_iff (joinPath dir hname) hB1 hB2 hr.1 hr.2
  rw [hcongr, List.filter_filter]
  have hflip : (fun (a : Int × Bool) => decide (a.1 < bd) && a.2)
      = (fun e => e.2 && decide (e.1 < bd)) := by
    funext a
    rw [Bool.and_comm]
  rw [hflip]
  rfl

/-- Claim C2 (confirmed).  For any mixed set of plain and compressed daily
files (with representable days) and any such `now`,
`toDeleteLogFileNames(now)` returns exactly the compressed files whose full
path sorts before the host path joined with `format(now − 7 days)` — that
is, exactly the compressed files dated strictly before `now − 7 days`'s
day, regardless of any plain files present. -/
theorem toDeleteLogFileNames_exact
    (dir : List Char) (hosts : List (List Char × List (Int × Bool))) (now : Int)
    (hrange : ∀ p ∈ hosts, ∀ e ∈ p.2, -719468 ≤ e.1 ∧ e.1 ≤ 2932896)
    (hB1 : -719468 ≤ dayOf now - 7) (hB2 : dayOf now - 7 ≤ 2932896) :
    toDeleteLogFileNames dir (hosts.map renderMixedHost) now
      = toDeleteSpec dir hosts now := by
  unfold toDeleteLogFileNames toDeleteSpec
  simp only [basenameFmt_eq_plainName, dayOf_sub_week]
  rw [List.foldl_map]
  exact foldl_append_congr hosts _ _
    (fun p hp => by
      have h := toDeleteOfHost_eq dir p.1 p.2 (dayOf now - 7) (hrange p hp) hB1 hB2
      rw [show renderMixedHost p
          = ⟨p.1, p.2.map (fun e => if e.2 then zstNameOf e.1 else plainNameOf e.1)⟩ from rfl, h])
    []

/-- Witness for claim C2, mirroring the repository's own test: host `dr`
holds compressed files for 2022-08-10 .. 2022-08-16 (days 19214..19220)
and plain files for 2022-08-17/18; host `router7` holds a compressed
2022-08-10 and a plain 2022-08-18; at `now = 2022-08-18 16:20` (boundary
day 2022-08-11) exactly the two 2022-08-10 compressed files are returned. -/
theorem toDeleteLogFileNames_exact_witness :
    toDeleteLogFileNames (chars "/perm/syslogd")
        ([(chars "dr", [((19214 : Int), true), (19215, true), (19216, true), (19217, true),
            (19218, true), (19219, true), (19220, true), (19221, false), (19222, false)]),
          (chars "router7", [((19214 : Int), true), (19222, false)])].map renderMixedHost)
        1660839600
      = [joinPath (joinPath (chars "/perm/syslogd") (chars "dr")) (zstNameOf 19214),
         joinPath (joinPath (chars "/perm/syslogd") (chars "router7")) (zstNameOf 19214)] := by
  have h := toDeleteLogFileNames_exact (chars "/perm/syslogd")
    [(chars "dr", [((19214 : Int), true), (19215, true), (19216, true), (19217, true),
        (19218, true), (19219, true), (19220, true), (19221, false), (19222, false)]),
     (chars "router7", [((19214 : Int), true), (19222, false)])]
    1660839600 (by decide) (by decide) (by decide)
  rw [h]
  decide

/-! ### Association-list and file-content lemmas -/

theorem alookup_aset_self {α : Type} : ∀ (f : List (FileKey × α)) (k : FileKey) (v : α),
    alookup (aset f k v) k = some v
  | [], k, v => by simp [aset, alookup]
  | (q, w) :: rest, k, v => by
      unfold aset
      by_cases hq : q = k
      · rw [if_pos hq]
        unfold alookup
        rw [if_pos hq]
      · rw [if_neg hq]
        unfold alookup
        rw [if_neg hq]
        exact alookup_aset_self rest k v

theorem aset_mem_key {α : Type} : ∀ (f : List (FileKey × α)) (k : FileKey) (v : α)
    (e : FileKey × α), e ∈ aset f k v → e.1 ∈ f.map Prod.fst ∨ e.1 = k
  | [], k, v, e => by
      intro he
      simp [aset] at he
      right
      rw [he]
  | (q, w) :: rest, k, v, e => by
      intro he
      unfold aset at he
      by_cases hq : q = k
      · rw [if_pos hq] at he
        rcases List.mem_cons.mp he with rfl | hr
        · right; exact hq
        · left
          simp only [List.map_cons, List.mem_cons]
          right
          exact List.mem_map_of_mem Prod.fst hr
      · rw [if_neg hq] at he
        rcases List.mem_cons.mp he with rfl | hr
        · left
          simp
        · rcases aset_mem_key rest k v e hr with hin | hk
          · left
            simp only [List.map_cons, List.mem_cons]
            right
            exact hin
          · right
            exact hk

theorem keysDistinct_aset : ∀ (f : List (FileKey × OpenFile)) (k : FileKey) (v : OpenFile),
    keysDistinct f → keysDistinct (aset f k v)
  | [], k, v, _ => by simp [aset, keysDistinct]
  | (q, w) :: rest, k, v, hd => by
      obtain ⟨hq, hrest⟩ := List.pairwise_cons.mp hd
      unfold aset
      by_cases hqk : q = k
      · rw [if_pos hqk]
        exact List.pairwise_cons.mpr ⟨hq, hrest⟩
      · rw [if_neg hqk]
        refine List.pairwise_cons.mpr ⟨?_, keysDistinct_aset rest k v hrest⟩
        intro e he
        rcases aset_mem_key rest k v e he with hin | hk
        · obtain ⟨e0, he0, heq⟩ := List.mem_map.mp hin
          have := hq e0 he0
          rw [heq] at this
          exact this
        · rw [hk]
          exact hqk

theorem alookup_filter (pred : FileKey × OpenFile → Bool) (k : FileKey) (v : OpenFile) :
    ∀ f, alookup f k = some v → pred (k, v) = true →
      alookup (f.filter pred) k = some v
  | [], h, _ => by simp [alookup] at h
  | (q, w) :: rest, h, hp => by
      unfold alookup at h
      by_cases hq : q = k
      · rw [if_pos hq] at h
        subst hq
        injection h with hw
        subst hw
        rw [List.filter_cons, if_pos hp]
        unfold alookup
        rw [if_pos rfl]
      · rw [if_neg hq] at h
        rw [List.filter_cons]
        by_cases hpq : pred (q, w) = true
        · rw [if_pos hpq]
          unfold alookup
          rw [if_neg hq]
          exact alookup_filter pred k v rest h hp
        · rw [if_neg hpq]
          exact alookup_filter pred k v rest h hp

theorem fsGetC_fsAppendC_self (p l : List Char) :
    ∀ c, fsGetC (fsAppendC c p l) p = some ((fsGetC c p).getD [] ++ l)
  | [] => by simp [fsAppendC, fsGetC]
  | (q, v) :: rest => by
      by_cases hq : q = p
      · subst hq
        simp [fsAppendC, fsGetC]
      · simp only [fsAppendC, fsGetC, if_neg hq]
        exact fsGetC_fsAppendC_self p l rest

theorem fsGetC_fsAppendC_other (p l q : List Char) (hq : q ≠ p) :
    ∀ c, fsGetC (fsAppendC c p l) q = fsGetC c q
  | [] => by
      simp only [fsAppendC, fsGetC]
      rw [if_neg (fun h => hq h.symm)]
  | (r, v) :: rest => by
      by_cases hr : r = p
      · subst hr
        simp only [fsAppendC, if_pos rfl, fsGetC]
        rw [if_neg (fun h => hq h.symm), if_neg (fun h => hq h.symm)]
      · simp only [fsAppendC, if_neg hr, fsGetC]
        by_cases hrq : r = q
        · rw [if_pos hrq, if_pos hrq]
        · rw [if_neg hrq, if_neg hrq]
          exact fsGetC_fsAppendC_other p l q hq rest

theorem fsAppendC_ne (c : FsC) (p l : List Char) (hl : l ≠ []) :
    fsAppendC c p l ≠ c := by
  intro he
  have h := fsGetC_fsAppendC_self p l c
  rw [he] at h
  cases hg : fsGetC c p with
  | none => rw [hg] at h; cases h
  | some v =>
      rw [hg] at h
      injection h with hv
      simp only [Option.getD_some] at hv
      have := congrArg List.length hv
      rw [List.length_append] at this
      have hz : l.length = 0 := by omega
      exact hl (List.length_eq_zero.mp hz)

/-! ### Behaviour of one consumer-loop iteration -/

theorem procMsg_contents_valid (now : Int) (st : ServerState) (m : LogParts)
    (hv : validMsg now m) :
    (procMsg now st m).contents = fsAppendC st.contents (msgPath st.dir m) (msgLine m) := by
  obtain ⟨h1, h2, h3, h4, h5⟩ := hv
  unfold procMsg
  rw [if_neg (by tauto), if_neg (by omega)]
  dsimp only
  split_ifs <;> rfl

theorem procMsg_contents_invalid (now : Int) (st : ServerState) (m : LogParts)
    (hv : ¬validMsg now m) :
    (procMsg now st m).contents = st.contents := by
  unfold procMsg
  by_cases hrej : m.hostname = [] ∨ m.tag = [] ∨ m.body = [] ∨ m.timestamp = goZeroSec
  · rw [if_pos hrej]
  · rw [if_neg hrej]
    push_neg at hrej
    by_cases hold : 24 * 3600 < now - m.timestamp
    · rw [if_pos hold]
    · exact absurd ⟨hrej.1, hrej.2.1, hrej.2.2.1, hrej.2.2.2, by omega⟩ hv

theorem procMsg_dir (now : Int) (st : ServerState) (m : LogParts) :
    (procMsg now st m).dir = st.dir := by
  unfold procMsg
  dsimp only
  split_ifs <;> rfl

theorem msgLine_ne_nil (m : LogParts) : msgLine m ≠ [] := by
  intro h
  have hlen := congrArg List.length h
  simp [msgLine] at hlen

/-- Resolving a cached handle: a hit updates last-use in place, keeps the
handle identity, and allocates no new one; the entry survives the sweep. -/
theorem procMsg_cache_hit (now : Int) (st : ServerState) (m : LogParts)
    (hv : validMsg now m) (fid : Nat) (lu : Int)
    (hl : alookup st.files ⟨m.hostname, basenameFmt m.timestamp⟩ = some ⟨fid, lu⟩) :
    alookup (procMsg now st m).files ⟨m.hostname, basenameFmt m.timestamp⟩
        = some ⟨fid, now⟩
    ∧ (procMsg now st m).nextId = st.nextId := by
  obtain ⟨h1, h2, h3, h4, h5⟩ := hv
  unfold procMsg
  rw [if_neg (by tauto), if_neg (by omega)]
  simp only [hl]
  have hset := alookup_aset_self st.files ⟨m.hostname, basenameFmt m.timestamp⟩
    ⟨fid, now⟩
  split_ifs with hs
  · refine ⟨?_, rfl⟩
    exact alookup_filter _ _ _ _ hset (by simp)
  · exact ⟨hset, rfl⟩

/-- Resolving a cached handle: a miss opens a fresh handle (the next id)
and caches it with last-use `now`; the entry survives the sweep. -/
theorem procMsg_cache_miss (now : Int) (st : ServerState) (m : LogParts)
    (hv : validMsg now m)
    (hl : alookup st.files ⟨m.hostname, basenameFmt m.timestamp⟩ = none) :
    alookup (procMsg now st m).files ⟨m.hostname, basenameFmt m.timestamp⟩
        = some ⟨st.nextId, now⟩
    ∧ (procMsg now st m).nextId = st.nextId + 1 := by
  obtain ⟨h1, h2, h3, h4, h5⟩ := hv
  unfold procMsg
  rw [if_neg (by tauto), if_neg (by omega)]
  simp only [hl]
  have hset := alookup_aset_self st.files ⟨m.hostname, basenameFmt m.timestamp⟩
    ⟨st.nextId, now⟩
  split_ifs with hs
  · refine ⟨?_, rfl⟩
    exact alookup_filter _ _ _ _ hset (by simp)
  · exact ⟨hset, rfl⟩

theorem procMsg_keysDistinct (now : Int) (st : ServerState) (m : LogParts)
    (hd : keysDistinct st.files) : keysDistinct (procMsg now st m).files := by
  unfold procMsg
  dsimp only
  split_ifs <;>
    first
      | exact hd
      | exact List.Pairwise.filter _
          (keysDistinct_aset st.files ⟨m.hostname, basenameFmt m.timestamp⟩ _ hd)
      | exact keysDistinct_aset st.files ⟨m.hostname, basenameFmt m.timestamp⟩ _ hd

theorem procMsgs_append (st : ServerState) :
    ∀ l1 l2, procMsgs st (l1 ++ l2) = procMsgs (procMsgs st l1) l2 := by
  intro l1
  induction l1 generalizing st with
  | nil => intro l2; rfl
  | cons x rest ih =>
      intro l2
      obtain ⟨t, m⟩ := x
      simp only [List.cons_append, procMsgs]
      exact ih (procMsg t st m) l2

/-- Claim C3 (confirmed).  One consumer-loop iteration appends a formatted
line (to the message's daily file) if and only if the message's hostname,
tag and body are non-empty, its timestamp is non-zero, and `now − timestamp`
is at most 24 hours; otherwise no file content changes.  Moreover the loop
is a total fold: whatever one message does, the remaining messages are
still processed.  (The filesystem model is failure-free: opens succeed.) -/
theorem procMsg_writes_iff :
    (∀ (now : Int) (st : ServerState) (m : LogParts),
      (procMsg now st m).contents = fsAppendC st.contents (msgPath st.dir m) (msgLine m)
        ↔ validMsg now m)
    ∧ ∀ (st : ServerState) (pre : List (Int × LogParts)) (t : Int) (m : LogParts) post,
        procMsgs st (pre ++ (t, m) :: post) = procMsgs (procMsg t (procMsgs st pre) m) post := by
  constructor
  · intro now st m
    constructor
    · intro he
      by_contra hv
      rw [procMsg_contents_invalid now st m hv] at he
      exact fsAppendC_ne st.contents _ _ (msgLine_ne_nil m) he.symm
    · exact procMsg_contents_valid now st m
  · intro st pre t m post
    rw [procMsgs_append]
    rfl

/-- Claim C8 (confirmed).  Each accepted message appends exactly one
newline-terminated record `rfc3339=<RFC3339 timestamp> <tag>: <body>` to
`<root>/<hostname>/<date>.log`, where the date is the calendar day of the
message's own timestamp (the path does not mention processing time `now`);
no other file changes. -/
theorem procMsg_record_format (now : Int) (st : ServerState) (m : LogParts)
    (hv : validMsg now m) :
    (procMsg now st m).contents
      = fsAppendC st.contents
          (joinPath (joinPath st.dir m.hostname)
            (dateChars (civilFromDays (dayOf m.timestamp)) ++ chars ".log"))
          (chars "rfc3339=" ++ rfc3339Chars m.timestamp
            ++ ' ' :: (m.tag ++ ':' :: ' ' :: (m.body ++ ['\n'])))
    ∧ fsGetC (procMsg now st m).contents
          (joinPath (joinPath st.dir m.hostname)
            (dateChars (civilFromDays (dayOf m.timestamp)) ++ chars ".log"))
        = some ((fsGetC st.contents (joinPath (joinPath st.dir m.hostname)
              (dateChars (civilFromDays (dayOf m.timestamp)) ++ chars ".log"))).getD []
            ++ (chars "rfc3339=" ++ rfc3339Chars m.timestamp
              ++ ' ' :: (m.tag ++ ':' :: ' ' :: (m.body ++ ['\n']))))
    ∧ ∀ q, q ≠ joinPath (joinPath st.dir m.hostname)
            (dateChars (civilFromDays (dayOf m.timestamp)) ++ chars ".log") →
        fsGetC (procMsg now st m).contents q = fsGetC st.contents q := by
  have hc := procMsg_contents_valid now st m hv
  refine ⟨hc, ?_, ?_⟩
  · rw [hc]
    exact fsGetC_fsAppendC_self _ _ st.contents
  · intro q hq
    rw [hc]
    exact fsGetC_fsAppendC_other _ _ q hq st.contents

/-- Witness for claim C8 at a concrete accepted message. -/
theorem procMsg_record_format_witness :
    validMsg 1660400500 ⟨chars "gokrazy", chars "iptables", chars "hello", 1660400490⟩
    ∧ (procMsg 1660400500 ⟨chars "/perm/syslogd", [], [], 100, 0, false⟩
          ⟨chars "gokrazy", chars "iptables", chars "hello", 1660400490⟩).contents
        = fsAppendC [] (joinPath (joinPath (chars "/perm/syslogd") (chars "gokrazy"))
            (dateChars (civilFromDays (dayOf (1660400490 : Int))) ++ chars ".log"))
            (chars "rfc3339=" ++ rfc3339Chars 1660400490
              ++ ' ' :: (chars "iptables" ++ ':' :: ' ' :: (chars "hello" ++ ['\n']))) :=
  ⟨by decide,
   (procMsg_record_format 1660400500 ⟨chars "/perm/syslogd", [], [], 100, 0, false⟩
      ⟨chars "gokrazy", chars "iptables", chars "hello", 1660400490⟩ (by decide)).1⟩

/-- Claim C10 (confirmed).  The acceptance check is one-sided: an
otherwise-valid message whose timestamp lies arbitrarily far in the future
is accepted and written to the plain file named for that future date (which
therefore exists while still receiving writes); only the past is bounded. -/
theorem procMsg_accepts_future (now : Int) (st : ServerState) (m : LogParts) (d : Int)
    (hd : 0 ≤ d) (hnow : 0 ≤ now) (hts : m.timestamp = now + d)
    (hh : m.hostname ≠ []) (htg : m.tag ≠ []) (hb : m.body ≠ []) :
    (procMsg now st m).contents
      = fsAppendC st.contents
          (joinPath (joinPath st.dir m.hostname)
            (dateChars (civilFromDays (dayOf (now + d))) ++ chars ".log")) (msgLine m)
    ∧ dayOf now ≤ dayOf (now + d) := by
  have hvz : m.timestamp ≠ goZeroSec := by
    rw [hts]
    unfold goZeroSec
    omega
  have hv : validMsg now m := ⟨hh, htg, hb, hvz, by rw [hts]; omega⟩
  constructor
  · have hc := procMsg_contents_valid now st m hv
    rw [hc]
    simp only [msgPath, basenameFmt, hts]
  · rw [dayOf_eq_ediv, dayOf_eq_ediv]
    omega

/-- Witness for claim C10: a message dated a year into the future is
accepted and written to the file for that future date. -/
theorem procMsg_accepts_future_witness :
    (procMsg 1660407600 ⟨chars "/perm/syslogd", [], [], 100, 0, false⟩
          ⟨chars "dr", chars "vpn", chars "up", 1660407600 + 31536000⟩).contents
      = fsAppendC [] (joinPath (joinPath (chars "/perm/syslogd") (chars "dr"))
          (dateChars (civilFromDays (dayOf ((1660407600 : Int) + 31536000))) ++ chars ".log"))
          (msgLine ⟨chars "dr", chars "vpn", chars "up", 1660407600 + 31536000⟩)
    ∧ dayOf (1660407600 : Int) ≤ dayOf ((1660407600 : Int) + 31536000) :=
  procMsg_accepts_future 1660407600 ⟨chars "/perm/syslogd", [], [], 100, 0, false⟩
    ⟨chars "dr", chars "vpn", chars "up", 1660407600 + 31536000⟩ 31536000
    (by decide) (by decide) rfl (by decide) (by decide) (by decide)

/-- Claim C6 (confirmed).  The cache keeps at most one handle per
`(hostname, basename)` key (key-distinctness is preserved by every
iteration), and two accepted messages for the same host and same
message-timestamp day, processed in sequence, use the same cached handle:
the second finds the key present (its own write refreshed last-use, so the
sweep cannot have evicted it), appends through the same handle identity,
and opens nothing new (`nextId` unchanged). -/
theorem cache_one_handle_per_key_and_reuse :
    (∀ (now : Int) (st : ServerState) (m : LogParts),
        keysDistinct st.files → keysDistinct (procMsg now st m).files)
    ∧ ∀ (st : ServerState) (t1 t2 : Int) (m1 m2 : LogParts),
        validMsg t1 m1 → validMsg t2 m2 →
        m1.hostname = m2.hostname → dayOf m1.timestamp = dayOf m2.timestamp →
        ∃ fid lu1 lu2,
          alookup (procMsg t1 st m1).files ⟨m1.hostname, basenameFmt m1.timestamp⟩
              = some ⟨fid, lu1⟩
          ∧ alookup (procMsg t2 (procMsg t1 st m1) m2).files
                ⟨m1.hostname, basenameFmt m1.timestamp⟩ = some ⟨fid, lu2⟩
          ∧ (procMsg t2 (procMsg t1 st m1) m2).nextId = (procMsg t1 st m1).nextId
          ∧ (procMsg t2 (procMsg t1 st m1) m2).contents
              = fsAppendC (procMsg t1 st m1).contents
                  (msgPath (procMsg t1 st m1).dir m2) (msgLine m2) := by
  constructor
  · exact fun now st m => procMsg_keysDistinct now st m
  · intro st t1 t2 m1 m2 hv1 hv2 hh hd
    have hkey : (⟨m2.hostname, basenameFmt m2.timestamp⟩ : FileKey)
        = ⟨m1.hostname, basenameFmt m1.timestamp⟩ := by
      rw [← hh]
      have hb : basenameFmt m2.timestamp = basenameFmt m1.timestamp := by
        unfold basenameFmt
        rw [hd]
      rw [hb]
    have step1 : ∃ fid, alookup (procMsg t1 st m1).files
        ⟨m1.hostname, basenameFmt m1.timestamp⟩ = some ⟨fid, t1⟩ := by
      cases hl : alookup st.files ⟨m1.hostname, basenameFmt m1.timestamp⟩ with
      | none => exact ⟨st.nextId, (procMsg_cache_miss t1 st m1 hv1 hl).1⟩
      | some of =>
          exact ⟨of.fid, (procMsg_cache_hit t1 st m1 hv1 of.fid of.lastUse (by rw [hl])).1⟩
    obtain ⟨fid, hf1⟩ := step1
    have step2 := procMsg_cache_hit t2 (procMsg t1 st m1) m2 hv2 fid t1 (by rw [hkey]; exact hf1)
    have s21 := step2.1
    rw [hkey] at s21
    exact ⟨fid, t1, t2, hf1, s21, step2.2, procMsg_contents_valid t2 _ m2 hv2⟩

/-- Witness for claim C6: two accepted messages for host `dr`, both dated
2022-08-13, processed back to back from the empty cache, share one handle. -/
theorem cache_one_handle_per_key_and_reuse_witness :
    ∃ (fid : Nat) (lu1 lu2 : Int),
      alookup (procMsg 1660407600 ⟨chars "/perm/syslogd", [], [], 100, 0, false⟩
            ⟨chars "dr", chars "a", chars "x", 1660400000⟩).files
          ⟨chars "dr", basenameFmt 1660400000⟩ = some ⟨fid, lu1⟩
      ∧ alookup (procMsg 1660407600 (procMsg 1660407600
              ⟨chars "/perm/syslogd", [], [], 100, 0, false⟩
              ⟨chars "dr", chars "a", chars "x", 1660400000⟩)
            ⟨chars "dr", chars "b", chars "y", 1660401000⟩).files
          ⟨chars "dr", basenameFmt 1660400000⟩ = some ⟨fid, lu2⟩ := by
  obtain ⟨fid, lu1, lu2, h1, h2, h3, h4⟩ :=
    (cache_one_handle_per_key_and_reuse).2
      ⟨chars "/perm/syslogd", [], [], 100, 0, false⟩ 1660407600 1660407600
      ⟨chars "dr", chars "a", chars "x", 1660400000⟩
      ⟨chars "dr", chars "b", chars "y", 1660401000⟩
      (by decide) (by decide) rfl (by decide)
  exact ⟨fid, lu1, lu2, h1, h2⟩

/-! ### Idle eviction (C5) and the rate-limiting gate (C9) -/

theorem evictIdle_go (now : Int) (closeFails : FileKey → Bool) :
    ∀ (files : List (FileKey × OpenFile)) (acc : List (FileKey × OpenFile) × List FileKey),
      files.foldl (fun acc e =>
          if now - e.2.lastUse < 10 * 60 then (acc.1 ++ [e], acc.2)
          else (acc.1, if closeFails e.1 then acc.2 ++ [e.1] else acc.2)) acc
      = (acc.1 ++ files.filter (fun e => decide (now - e.2.lastUse < 10 * 60)),
         acc.2 ++ (files.filter (fun e =>
             !decide (now - e.2.lastUse < 10 * 60) && closeFails e.1)).map Prod.fst)
  | [], acc => by simp
  | e :: rest, acc => by
      rw [List.foldl_cons]
      by_cases h : now - e.2.lastUse < 10 * 60
      · have hdec : decide (now - e.2.lastUse < 10 * 60) = true := decide_eq_true h
        have hnne : ¬((!decide (now - e.2.lastUse < 10 * 60) && closeFails e.1) = true) := by
          rw [hdec]
          exact Bool.false_ne_true
        rw [if_pos h, evictIdle_go now closeFails rest _]
        simp only [List.filter_cons]
        rw [if_pos hdec, if_neg hnne, List.append_assoc, List.singleton_append]
      · have hdec : decide (now - e.2.lastUse < 10 * 60) = false := decide_eq_false h
        have hd_ne : ¬(decide (now - e.2.lastUse < 10 * 60) = true) := by
          rw [hdec]
          exact Bool.false_ne_true
        by_cases hc : closeFails e.1 = true
        · have hp : (!decide (now - e.2.lastUse < 10 * 60) && closeFails e.1) = true := by
            rw [hdec, hc]
            rfl
          rw [if_neg h, if_pos hc, evictIdle_go now closeFails rest _]
          simp only [List.filter_cons]
          rw [if_neg hd_ne, if_pos hp, List.map_cons, List.append_assoc,
            List.singleton_append]
        · have hp_ne : ¬((!decide (now - e.2.lastUse < 10 * 60) && closeFails e.1) = true) := by
          
            have hcf : closeFails e.1 = false := by
              cases hcv : closeFails e.1 with
              | true => exact absurd hcv hc
              | false => rfl
            rw [hcf, Bool.and_false]
            exact Bool.false_ne_true
          rw [if_neg h, if_neg hc, evictIdle_go now closeFails rest _]
          simp only [List.filter_cons]
          rw [if_neg hd_ne, if_neg hp_ne]

/-- Claim C5 (confirmed).  After an eviction sweep, whatever the close
results: every handle last used 10 minutes or more ago is removed from the
cache, every handle used within the window survives, the retained set is
exactly the failure-free sweep (`closeFails` cannot prevent removal), and
the reported keys are exactly the evicted handles whose close failed. -/
theorem evictIdle_correct (now : Int) (closeFails : FileKey → Bool)
    (files : List (FileKey × OpenFile)) :
    (evictIdle now closeFails files).1
        = files.filter (fun e => decide (now - e.2.lastUse < 10 * 60))
    ∧ (evictIdle now closeFails files).2
        = (files.filter (fun e => !decide (now - e.2.lastUse < 10 * 60)
            && closeFails e.1)).map Prod.fst
    ∧ (∀ k of, (k, of) ∈ (evictIdle now closeFails files).1
        ↔ ((k, of) ∈ files ∧ now - of.lastUse < 10 * 60))
    ∧ (evictIdle now closeFails files).1 = sweep now files := by
  unfold evictIdle
  rw [evictIdle_go now closeFails files ([], [])]
  simp only [List.nil_append]
  refine ⟨trivial, trivial, ?_, rfl⟩
  intro k of
  rw [List.mem_filter]
  constructor
  · intro hm
    exact ⟨hm.1, of_decide_eq_true hm.2⟩
  · intro hm
    exact ⟨hm.1, decide_eq_true hm.2⟩

theorem rl_count_shift : ∀ (evs : List RLEvent) (flag : Bool) (c : Nat),
    (evs.foldl rlStep (flag, c)).2 = c + (evs.foldl rlStep (flag, 0)).2
  | [], flag, c => by simp
  | e :: rest, flag, c => by
      cases e with
      | reset =>
          rw [List.foldl_cons, List.foldl_cons]
          show (rest.foldl rlStep (false, c)).2 = c + (rest.foldl rlStep (false, 0)).2
          exact rl_count_shift rest false c
      | attempt =>
          rw [List.foldl_cons, List.foldl_cons]
          show (rest.foldl rlStep (true, if flag then c else c + 1)).2
              = c + (rest.foldl rlStep (true, if flag then 0 else 0 + 1)).2
          rw [rl_count_shift rest true (if flag then c else c + 1),
            rl_count_shift rest true (if flag then 0 else 0 + 1)]
          cases flag <;> (simp; all_goals omega)

theorem rl_true_count : ∀ (evs : List RLEvent), RLEvent.reset ∉ evs →
    ∀ c, (evs.foldl rlStep (true, c)).2 = c
  | [], _, c => rfl
  | e :: rest, hmem, c => by
      cases e with
      | reset => exact absurd (List.mem_cons_self _ _) hmem
      | attempt =>
          rw [List.foldl_cons]
          show (rest.foldl rlStep (true, c)).2 = c
          exact rl_true_count rest (fun h => hmem (List.mem_cons_of_mem _ h)) c

theorem rl_window_bound : ∀ (mid : List RLEvent), RLEvent.reset ∉ mid →
    (mid.foldl rlStep (false, 0)).2 ≤ 1
  | [], _ => by simp
  | e :: rest, hmem => by
      cases e with
      | reset => exact absurd (List.mem_cons_self _ _) hmem
      | attempt =>
          rw [List.foldl_cons]
          show (rest.foldl rlStep (true, 1)).2 ≤ 1
          rw [rl_true_count rest (fun h => hmem (List.mem_cons_of_mem _ h)) 1]

/-- Claim C9 (confirmed).  In the linearized trace of flag operations, the
messages emitted during a window opened by a ticker reset and containing no
further reset number at most one: only the attempt that flips the flag from
0 to 1 emits, and the window's emissions add to the count before the
reset. -/
theorem rlRun_window (pre mid : List RLEvent) (hmid : RLEvent.reset ∉ mid) :
    (rlRun (pre ++ RLEvent.reset :: mid)).2 = (rlRun pre).2 + (rlRun mid).2
    ∧ (rlRun mid).2 ≤ 1 := by
  refine ⟨?_, rl_window_bound mid hmid⟩
  unfold rlRun
  rw [List.foldl_append, List.foldl_cons]
  show (mid.foldl rlStep (false, (pre.foldl rlStep (false, 0)).2)).2
      = (pre.foldl rlStep (false, 0)).2 + (mid.foldl rlStep (false, 0)).2
  exact rl_count_shift mid false _

/-- Witness for claim C9: one attempt before the reset, two attempts in the
window after it; only the first of the two emits. -/
theorem rlRun_window_witness :
    (rlRun ([RLEvent.attempt] ++ RLEvent.reset :: [RLEvent.attempt, RLEvent.attempt])).2
      = (rlRun [RLEvent.attempt]).2 + (rlRun [RLEvent.attempt, RLEvent.attempt]).2
    ∧ (rlRun [RLEvent.attempt, RLEvent.attempt]).2 ≤ 1 :=
  rlRun_window [RLEvent.attempt] [RLEvent.attempt, RLEvent.attempt] (by decide)

/-! ### Compression (C4) and the maintenance workers (C7) -/

theorem fsGet2_set_self : ∀ (fs : Fs2) (p : List Char) (v : Bs),
    fsGet2 (fsSet2 fs p v) p = some v
  | [], p, v => by simp [fsSet2, fsGet2]
  | (q, w) :: rest, p, v => by
      by_cases hq : q = p
      · subst hq
        simp [fsSet2, fsGet2]
      · simp only [fsSet2, if_neg hq, fsGet2]
        exact fsGet2_set_self rest p v

theorem fsGet2_set_other (p : List Char) (v : Bs) (q : List Char) (hq : q ≠ p) :
    ∀ fs : Fs2, fsGet2 (fsSet2 fs p v) q = fsGet2 fs q
  | [] => by
      simp only [fsSet2, fsGet2]
      rw [if_neg (fun h => hq h.symm)]
  | (r, w) :: rest => by
      by_cases hr : r = p
      · subst hr
        have hrq : ¬(r = q) := fun h => hq h.symm
        simp only [fsSet2, if_pos rfl, fsGet2]
        rw [if_neg hrq, if_neg hrq]
      · simp only [fsSet2, if_neg hr, fsGet2]
        by_cases hrq : r = q
        · rw [if_pos hrq, if_pos hrq]
        · rw [if_neg hrq, if_neg hrq]
          exact fsGet2_set_other p v q hq rest

theorem fsGet2_del_self : ∀ (fs : Fs2) (p : List Char),
    fsGet2 (fsDel2 fs p) p = none
  | [], p => rfl
  | (q, w) :: rest, p => by
      by_cases hq : q = p
      · simp only [fsDel2, if_pos hq]
        exact fsGet2_del_self rest p
      · simp only [fsDel2, if_neg hq, fsGet2]
        exact fsGet2_del_self rest p

theorem fsGet2_del_other (p q : List Char) (hq : q ≠ p) :
    ∀ fs : Fs2, fsGet2 (fsDel2 fs p) q = fsGet2 fs q
  | [] => rfl
  | (r, w) :: rest => by
      by_cases hr : r = p
      · subst hr
        have hrq : ¬(r = q) := fun h => hq h.symm
        simp only [fsDel2, if_pos rfl, fsGet2]
        rw [if_neg hrq]
        exact fsGet2_del_other r q hq rest
      · simp only [fsDel2, if_neg hr, fsGet2]
        by_cases hrq : r = q
        · rw [if_pos hrq, if_pos hrq]
        · rw [if_neg hrq, if_neg hrq]
          exact fsGet2_del_other p q hq rest

theorem append_ne_of_suffix_length {l s1 s2 : List Char} (h : s1.length ≠ s2.length) :
    l ++ s1 ≠ l ++ s2 := by
  intro he
  have := congrArg List.length he
  rw [List.length_append, List.length_append] at this
  omega

theorem self_ne_append {l s : List Char} (h : s ≠ []) : l ≠ l ++ s := by
  intro he
  have := congrArg List.length he
  rw [List.length_append] at this
  have hz : s.length = 0 := by omega
  exact h (List.length_eq_zero.mp hz)

/-- Claim C4 (confirmed).  `compressFile(fn)` streams the source through the
Zstandard encoder into a temporary file and atomically renames it onto
`<fn>.zst`, removing the original only afterwards: on success the target
decodes byte-identically to the original and the original is gone; no state
of the trace shows a truncated encoding at the final name; and a failure
after any prefix of the steps (the rename included, failing at the final
remove) leaves the original file in place. -/
theorem compressFile_correct (fs : Fs2) (fn : List Char) (b : Bs)
    (hsrc : fsGet2 fs fn = some b)
    (htgt : ∀ b0, fsGet2 fs (zstPathOf fn) ≠ some (Bs.zhalf b0)) :
    (∃ fs2, compressFileM fs fn = .ok fs2
      ∧ fsGet2 fs2 (zstPathOf fn) = some (Bs.zstd b)
      ∧ unzstd (Bs.zstd b) = some b
      ∧ fsGet2 fs2 fn = none)
    ∧ (∀ σ ∈ compressTrace fs fn, ∀ b0, fsGet2 σ (zstPathOf fn) ≠ some (Bs.zhalf b0))
    ∧ (∀ k, fsGet2 (compressAbort fs fn k) fn = some b) := by
  have hfz : fn ≠ zstPathOf fn := self_ne_append (by decide)
  have hft : fn ≠ tmpPathOf fn := self_ne_append (by decide)
  have htz : tmpPathOf fn ≠ zstPathOf fn := by
    unfold tmpPathOf zstPathOf
    exact append_ne_of_suffix_length (by decide)
  refine ⟨?_, ?_, ?_⟩
  · unfold compressFileM
    rw [hsrc]
    refine ⟨_, rfl, ?_, rfl, ?_⟩
    · rw [fsGet2_del_other fn (zstPathOf fn) (Ne.symm hfz), fsGet2_set_self]
    · rw [fsGet2_del_self]
  · unfold compressTrace
    rw [hsrc]
    intro σ hσ
    simp only [List.mem_cons, List.not_mem_nil, or_false] at hσ
    rcases hσ with rfl | rfl | rfl | rfl | rfl
    · exact htgt
    · intro b0
      rw [fsGet2_set_other (tmpPathOf fn) _ (zstPathOf fn) (Ne.symm htz)]
      exact htgt b0
    · intro b0
      rw [fsGet2_set_other (tmpPathOf fn) _ (zstPathOf fn) (Ne.symm htz)]
      exact htgt b0
    · intro b0
      rw [fsGet2_set_self]
      intro hcon
      injection hcon with hx
      cases hx
    · intro b0
      rw [fsGet2_del_other fn (zstPathOf fn) (Ne.symm hfz), fsGet2_set_self]
      intro hcon
      injection hcon with hx
      cases hx
  · intro k
    unfold compressAbort
    rw [hsrc]
    split_ifs with h0 h1 h2
    · exact hsrc
    · rw [fsGet2_del_other (tmpPathOf fn) fn hft, fsGet2_set_other (tmpPathOf fn) _ fn hft]
      exact hsrc
    · rw [fsGet2_del_other (tmpPathOf fn) fn hft, fsGet2_set_other (tmpPathOf fn) _ fn hft]
      exact hsrc
    · rw [fsGet2_set_other (zstPathOf fn) _ fn hfz,
        fsGet2_del_other (tmpPathOf fn) fn hft, fsGet2_set_other (tmpPathOf fn) _ fn hft]
      exact hsrc

/-- Witness for claim C4 at a concrete one-file filesystem. -/
theorem compressFile_correct_witness :
    ∃ fs2, compressFileM [(chars "dr/2022-08-10.log", Bs.lit (chars "hello syslog"))]
          (chars "dr/2022-08-10.log") = .ok fs2
      ∧ fsGet2 fs2 (zstPathOf (chars "dr/2022-08-10.log"))
          = some (Bs.zstd (Bs.lit (chars "hello syslog")))
      ∧ unzstd (Bs.zstd (Bs.lit (chars "hello syslog")))
          = some (Bs.lit (chars "hello syslog"))
      ∧ fsGet2 fs2 (chars "dr/2022-08-10.log") = none := by
  have h := compressFile_correct
    [(chars "dr/2022-08-10.log", Bs.lit (chars "hello syslog"))]
    (chars "dr/2022-08-10.log") (Bs.lit (chars "hello syslog"))
    (by decide)
    (by
      intro b0 hcon
      have hnone : fsGet2 [(chars "dr/2022-08-10.log", Bs.lit (chars "hello syslog"))]
          (zstPathOf (chars "dr/2022-08-10.log")) = none := by decide
      rw [hnone] at hcon
      cases hcon)
  exact h.1

/-! ### C7: per-file failures in the maintenance workers are isolated -/

theorem compressStep_fail (failAt : List Char → Option Nat) (fn : List Char)
    (k : Nat) (h : failAt fn = some k) (fs : Fs2) (a b : List (List Char)) :
    compressStep failAt (fs, a, b) fn
      = (compressAbort fs fn k, a ++ [fn], b ++ [fn]) := by
  simp [compressStep, h]

theorem compressStep_ok (failAt : List Char → Option Nat) (fn : List Char)
    (h : failAt fn = none) (fs fs2 : Fs2) (h2 : compressFileM fs fn = .ok fs2)
    (a b : List (List Char)) :
    compressStep failAt (fs, a, b) fn = (fs2, a ++ [fn], b) := by
  simp [compressStep, h, h2]

theorem compressStep_err (failAt : List Char → Option Nat) (fn : List Char)
    (h : failAt fn = none) (fs : Fs2) (e : Unit)
    (h2 : compressFileM fs fn = .error e) (a b : List (List Char)) :
    compressStep failAt (fs, a, b) fn = (fs, a ++ [fn], b ++ [fn]) := by
  simp [compressStep, h, h2]

theorem compressFold_full (failAt : List Char → Option Nat) :
    ∀ (cold : List (List Char)) (fs : Fs2) (a b : List (List Char)),
    cold.foldl (compressStep failAt) (fs, a, b)
      = (compressRunFs failAt cold fs, a ++ cold, b ++ compressRunLog failAt cold fs)
  | [], fs, a, b => by simp [compressRunFs, compressRunLog]
  | fn :: rest, fs, a, b => by
      rw [List.foldl_cons]
      cases hf : failAt fn with
      | some k =>
          rw [compressStep_fail failAt fn k hf fs a b,
            compressFold_full failAt rest (compressAbort fs fn k) (a ++ [fn]) (b ++ [fn])]
          simp [compressRunFs, compressRunLog, hf]
      | none =>
          cases hc : compressFileM fs fn with
          | ok fs2 =>
              rw [compressStep_ok failAt fn hf fs fs2 hc a b,
                compressFold_full failAt rest fs2 (a ++ [fn]) b]
              simp [compressRunFs, compressRunLog, hf, hc]
          | error e =>
              rw [compressStep_err failAt fn hf fs e hc a b,
                compressFold_full failAt rest fs (a ++ [fn]) (b ++ [fn])]
              simp [compressRunFs, compressRunLog, hf, hc]

theorem compressRunLog_mem (failAt : List Char → Option Nat) (fn : List Char)
    (k : Nat) (hk : failAt fn = some k) :
    ∀ (cold : List (List Char)) (fs : Fs2), fn ∈ cold →
    fn ∈ compressRunLog failAt cold fs
  | g :: rest, fs, hmem => by
      rcases List.mem_cons.mp hmem with hg | hg
      · subst hg
        simp [compressRunLog, hk]
      · cases hf : failAt g with
        | some j =>
            simp only [compressRunLog, hf]
            exact List.mem_cons_of_mem g
              (compressRunLog_mem failAt fn k hk rest (compressAbort fs g j) hg)
        | none =>
            cases hc : compressFileM fs g with
            | ok fs2 =>
                simp only [compressRunLog, hf, hc]
                exact compressRunLog_mem failAt fn k hk rest fs2 hg
            | error e =>
                simp only [compressRunLog, hf, hc]
                exact List.mem_cons_of_mem g
                  (compressRunLog_mem failAt fn k hk rest fs hg)

theorem deleteFold_full (delFails : List Char → Bool) :
    ∀ (td : List (List Char)) (fs : Fs2) (a b : List (List Char)),
    td.foldl (deleteStep delFails) (fs, a, b)
      = (deleteRunFs delFails td fs, a ++ td, b ++ td.filter delFails)
  | [], fs, a, b => by simp [deleteRunFs]
  | fn :: rest, fs, a, b => by
      rw [List.foldl_cons]
      by_cases hd : delFails fn = true
      · have hstep : deleteStep delFails (fs, a, b) fn = (fs, a ++ [fn], b ++ [fn]) := by
          simp [deleteStep, hd]
        rw [hstep, deleteFold_full delFails rest fs (a ++ [fn]) (b ++ [fn])]
        simp only [deleteRunFs, if_pos hd, List.filter_cons, hd]
        simp
      · have hstep : deleteStep delFails (fs, a, b) fn
            = (fsDel2 fs fn, a ++ [fn], b) := by
          simp [deleteStep, hd]
        rw [hstep, deleteFold_full delFails rest (fsDel2 fs fn) (a ++ [fn]) b]
        have hd' : delFails fn = false := by
          cases h : delFails fn with
          | true => exact absurd h hd
          | false => rfl
        simp only [deleteRunFs, if_neg hd, List.filter_cons, hd']
        simp

theorem fsGet2_del_none (fs : Fs2) (p q : List Char)
    (h : fsGet2 fs p = none) : fsGet2 (fsDel2 fs q) p = none := by
  by_cases hpq : p = q
  · subst hpq
    exact fsGet2_del_self fs p
  · rw [fsGet2_del_other q p hpq fs]
    exact h

theorem deleteRunFs_none (delFails : List Char → Bool) (p : List Char) :
    ∀ (td : List (List Char)) (fs : Fs2), fsGet2 fs p = none →
    fsGet2 (deleteRunFs delFails td fs) p = none
  | [], fs, h => h
  | fn :: rest, fs, h => by
      simp only [deleteRunFs]
      by_cases hd : delFails fn = true
      · rw [if_pos hd]
        exact deleteRunFs_none delFails p rest fs h
      · rw [if_neg hd]
        exact deleteRunFs_none delFails p rest (fsDel2 fs fn)
          (fsGet2_del_none fs p fn h)

theorem delete_removes (delFails : List Char → Bool) (fn : List Char)
    (hok : delFails fn = false) :
    ∀ (td : List (List Char)) (fs : Fs2), fn ∈ td →
    fsGet2 (deleteRunFs delFails td fs) fn = none
  | g :: rest, fs, hmem => by
      rcases List.mem_cons.mp hmem with hg | hg
      · subst hg
        have hcond : ¬(delFails fn = true) := by
          rw [hok]
          exact Bool.false_ne_true
        simp only [deleteRunFs, if_neg hcond]
        exact deleteRunFs_none delFails fn rest (fsDel2 fs fn)
          (fsGet2_del_self fs fn)
      · simp only [deleteRunFs]
        exact delete_removes delFails fn hok rest _ hg

/-- **C7.** During a compaction/pruning cycle a per-file failure never aborts
the batch: `compressOldLogs` returns success with every cold file attempted,
a file whose compression fails is logged (and, per `compressRunFs`, merely
skipped) while the rest are still processed; `deleteOldLogs` returns success
with every file attempted, exactly the files whose deletion fails logged, and
every file whose deletion succeeds actually removed; a missing log directory
makes either worker return success having done nothing. -/
theorem workers_isolate_failures (cold td : List (List Char)) (fs gs : Fs2)
    (failAt : List Char → Option Nat) (delFails : List Char → Bool)
    (fn g : List Char) (k : Nat)
    (hmem : fn ∈ td) (hok : delFails fn = false)
    (hg : g ∈ cold) (hk : failAt g = some k) :
    compressOldLogs (.ok cold) fs failAt
        = .ok (compressRunFs failAt cold fs, cold, compressRunLog failAt cold fs)
    ∧ g ∈ compressRunLog failAt cold fs
    ∧ deleteOldLogs (.ok td) gs delFails
        = .ok (deleteRunFs delFails td gs, td, td.filter delFails)
    ∧ fsGet2 (deleteRunFs delFails td gs) fn = none
    ∧ compressOldLogs (.error .notExist) fs failAt = .ok (fs, [], [])
    ∧ deleteOldLogs (.error .notExist) gs delFails = .ok (gs, [], []) := by
  refine ⟨?_, ?_, ?_, ?_, rfl, rfl⟩
  · show Except.ok (cold.foldl (compressStep failAt) (fs, [], [])) = _
    rw [compressFold_full failAt cold fs [] []]
    simp
  · exact compressRunLog_mem failAt g k hk cold fs hg
  · show Except.ok (td.foldl (deleteStep delFails) (gs, [], [])) = _
    rw [deleteFold_full delFails td gs [] []]
    simp
  · exact delete_removes delFails fn hok td gs hmem

theorem workers_isolate_failures_witness :
    compressOldLogs (.ok [chars "a.log"])
        [(chars "a.log", Bs.lit (chars "hello"))]
        (fun p => if p = chars "a.log" then some 1 else none)
      = .ok (compressRunFs (fun p => if p = chars "a.log" then some 1 else none)
          [chars "a.log"] [(chars "a.log", Bs.lit (chars "hello"))],
          [chars "a.log"],
          compressRunLog (fun p => if p = chars "a.log" then some 1 else none)
            [chars "a.log"] [(chars "a.log", Bs.lit (chars "hello"))])
    ∧ chars "a.log" ∈ compressRunLog
        (fun p => if p = chars "a.log" then some 1 else none)
        [chars "a.log"] [(chars "a.log", Bs.lit (chars "hello"))]
    ∧ deleteOldLogs (.ok [chars "x.zst", chars "y.zst"])
        [(chars "x.zst", Bs.lit []), (chars "y.zst", Bs.lit [])]
        (fun p => decide (p = chars "x.zst"))
      = .ok (deleteRunFs (fun p => decide (p = chars "x.zst"))
          [chars "x.zst", chars "y.zst"]
          [(chars "x.zst", Bs.lit []), (chars "y.zst", Bs.lit [])],
          [chars "x.zst", chars "y.zst"],
          [chars "x.zst", chars "y.zst"].filter (fun p => decide (p = chars "x.zst")))
    ∧ fsGet2 (deleteRunFs (fun p => decide (p = chars "x.zst"))
          [chars "x.zst", chars "y.zst"]
          [(chars "x.zst", Bs.lit []), (chars "y.zst", Bs.lit [])])
        (chars "y.zst") = none
    ∧ compressOldLogs (.error .notExist)
        [(chars "a.log", Bs.lit (chars "hello"))]
        (fun p => if p = chars "a.log" then some 1 else none)
      = .ok ([(chars "a.log", Bs.lit (chars "hello"))], [], [])
    ∧ deleteOldLogs (.error .notExist)
        [(chars "x.zst", Bs.lit []), (chars "y.zst", Bs.lit [])]
        (fun p => decide (p = chars "x.zst"))
      = .ok ([(chars "x.zst", Bs.lit []), (chars "y.zst", Bs.lit [])], [], []) :=
  workers_isolate_failures [chars "a.log"] [chars "x.zst", chars "y.zst"]
    [(chars "a.log", Bs.lit (chars "hello"))]
    [(chars "x.zst", Bs.lit []), (chars "y.zst", Bs.lit [])]
    (fun p => if p = chars "a.log" then some 1 else none)
    (fun p => decide (p = chars "x.zst"))
    (chars "y.zst") (chars "a.log") 1
    (by decide) (by decide) (by decide) (by decide)
